import Mathlib

/-!
Verification of the veritas-ai legal-research application.

Text is modelled as `List Char` (JavaScript strings); machine numbers as
`Nat`/`Int`/`ℚ`.  Each definition is a shallow embedding of the TypeScript
function of the same name.
-/

namespace Veritas

/-- JavaScript strings are modelled as lists of characters. -/
abbrev Str := List Char

/-- ASCII whitespace, modelling the characters JavaScript's `trim` and `\s`
remove in the inputs of interest. -/
def wsChar (c : Char) : Bool :=
  c = ' ' || c = '\t' || c = '\n' || c = '\r'

/-- `String.prototype.trim`: drop whitespace from both ends. -/
def trimStr (s : Str) : Str :=
  ((s.dropWhile wsChar).reverse.dropWhile wsChar).reverse

/-- ASCII decimal digit, modelling the regex class `\d`. -/
def isDigitB (c : Char) : Bool := '0' ≤ c && c ≤ '9'

/-- Word characters, modelling the regex classes `\w` and the sides of `\b`. -/
def isWordChar (c : Char) : Bool :=
  ('a' ≤ c && c ≤ 'z') || ('A' ≤ c && c ≤ 'Z') || isDigitB c || c = '_'

/-- ASCII lower-casing, modelling `String.prototype.toLowerCase` on the
inputs of interest. -/
def lowerChar (c : Char) : Char :=
  if 'A' ≤ c && c ≤ 'Z' then Char.ofNat (c.toNat + 32) else c

/-- `toLowerCase` over a whole string. -/
def lowerStr (s : Str) : Str := s.map lowerChar

/-- Does `s` start with `w`? -/
def startsWithStr : Str → Str → Bool
  | _, [] => true
  | [], _ :: _ => false
  | c :: s, w0 :: w => c = w0 && startsWithStr s w

/-- `String.prototype.includes`: does `s` contain `w` as a contiguous
substring? -/
def containsSub : Str → Str → Bool
  | s, w =>
    startsWithStr s w ||
      match s with
      | [] => false
      | _ :: rest => containsSub rest w

/-- First-occurrence deduplication by a key, the common JS idiom
(`new Set` / seen-set filter): keep an element exactly when its key has not
appeared earlier. -/
def dedupByGo {α β : Type} [DecidableEq β] (key : α → β) :
    List β → List α → List α
  | _, [] => []
  | seen, a :: rest =>
    if key a ∈ seen then dedupByGo key seen rest
    else a :: dedupByGo key (key a :: seen) rest

/-- `dedupBy key l`: keep the first occurrence of each key. -/
def dedupBy {α β : Type} [DecidableEq β] (key : α → β) (l : List α) : List α :=
  dedupByGo key [] l

/-! ### A small regular-expression engine

`RegExp.test` only asks whether a match exists, so the engine uses plain
existential (nondeterministic) semantics, which agrees with JavaScript's
backtracking semantics for the `test` calls modelled here. -/

/-- One token of a regular expression: a single character of a class, the
quantifiers `*`, `+`, `?` over a class, or a word boundary `\b`. -/
inductive RTok where
  | one (p : Char → Bool)
  | many (p : Char → Bool)
  | plus (p : Char → Bool)
  | opt (p : Char → Bool)
  | bnd

/-- Is the optional character a word character (`\b` looks at both sides;
the edge of the string counts as a non-word side)? -/
def isWordOpt : Option Char → Bool
  | none => false
  | some c => isWordChar c

/-- Process the token list at one input position.  `prev` and `cur` are the
characters around the position (`none` at the edges); `next ts'` continues
matching the tokens `ts'` after consuming `cur`.  A token that consumes a
character hands the rest to `next`; `\b` and the empty choices of `?`/`*`
stay at the position. -/
def rmatchStep (next : List RTok → Bool) (prev cur : Option Char) :
    List RTok → Bool
  | [] => true
  | .bnd :: ts => (isWordOpt prev != isWordOpt cur) && rmatchStep next prev cur ts
  | .one p :: ts =>
      match cur with
      | none => false
      | some c => p c && next ts
  | .opt p :: ts =>
      rmatchStep next prev cur ts ||
        match cur with
        | none => false
        | some c => p c && next ts
  | .many p :: ts =>
      rmatchStep next prev cur ts ||
        match cur with
        | none => false
        | some c => p c && next (.many p :: ts)
  | .plus p :: ts =>
      match cur with
      | none => false
      | some c => p c && (next ts || next (.plus p :: ts))

/-- Match a token list against the front of the input.  `prev` is the
character just before the current position (for `\b`). -/
def rmatch : List Char → Option Char → List RTok → Bool
  | [], prev, ts => rmatchStep (fun _ => false) prev none ts
  | c :: rest, prev, ts => rmatchStep (fun ts' => rmatch rest (some c) ts') prev (some c) ts

/-- Try to match at every position of the input. -/
def rtest : List RTok → Option Char → List Char → Bool
  | ts, prev, [] => rmatch [] prev ts
  | ts, prev, c :: rest => rmatch (c :: rest) prev ts || rtest ts (some c) rest

/-- `pattern.test(s)` for an unanchored pattern. -/
def regexTest (ts : List RTok) (s : Str) : Bool := rtest ts none s

/-- `\d{n}`. -/
def digitsN (n : Nat) : List RTok := List.replicate n (.one isDigitB)

/-- `/\b\d{3}-\d{2}-\d{4}\b/` (SSN). -/
def ssnRE : List RTok :=
  [.bnd] ++ digitsN 3 ++ [.one (· = '-')] ++ digitsN 2 ++ [.one (· = '-')] ++
    digitsN 4 ++ [.bnd]

/-- `/\b\d{4}\s?\d{4}\s?\d{4}\s?\d{4}\b/` (credit card). -/
def ccRE : List RTok :=
  [.bnd] ++ digitsN 4 ++ [.opt wsChar] ++ digitsN 4 ++ [.opt wsChar] ++
    digitsN 4 ++ [.opt wsChar] ++ digitsN 4 ++ [.bnd]

/-- Character class `[A-Za-z0-9._%+-]` of the email pattern's local part. -/
def emailLocalChar (c : Char) : Bool :=
  ('A' ≤ c && c ≤ 'Z') || ('a' ≤ c && c ≤ 'z') || isDigitB c ||
    c = '.' || c = '_' || c = '%' || c = '+' || c = '-'

/-- Character class `[A-Za-z0-9.-]` of the email pattern's domain part. -/
def emailDomChar (c : Char) : Bool :=
  ('A' ≤ c && c ≤ 'Z') || ('a' ≤ c && c ≤ 'z') || isDigitB c || c = '.' || c = '-'

/-- Character class `[A-Z|a-z]` (the literal `|` is part of the class). -/
def emailTldChar (c : Char) : Bool :=
  ('A' ≤ c && c ≤ 'Z') || c = '|' || ('a' ≤ c && c ≤ 'z')

/-- `/\b[A-Za-z0-9._%+-]+@[A-Za-z0-9.-]+\.[A-Z|a-z]{2,}\b/` (email). -/
def emailRE : List RTok :=
  [.bnd, .plus emailLocalChar, .one (· = '@'), .plus emailDomChar,
    .one (· = '.'), .one emailTldChar, .one emailTldChar, .many emailTldChar, .bnd]

/-- `/\b\d{3}-\d{3}-\d{4}\b/` (phone). -/
def phoneRE : List RTok :=
  [.bnd] ++ digitsN 3 ++ [.one (· = '-')] ++ digitsN 3 ++ [.one (· = '-')] ++
    digitsN 4 ++ [.bnd]

namespace Aiid

/-- Severity levels of `aiid-processor.ts`. -/
inductive Severity where
  | low
  | medium
  | high
  | critical
deriving DecidableEq

/-- `getSeverityScore`: `{ low: 1, medium: 2, high: 3, critical: 4 }`. -/
def sevScore : Severity → Nat
  | .low => 1
  | .medium => 2
  | .high => 3
  | .critical => 4

/-- The `severityMap` lookup of `calculateOverallRisk`, with its `|| 'low'`
fallback. -/
def scoreToSev (n : Nat) : Severity :=
  if n = 1 then .low
  else if n = 2 then .medium
  else if n = 3 then .high
  else if n = 4 then .critical
  else .low

/-- A safety pattern generated from AIID incidents. -/
structure SafetyPattern where
  pattern : Str
  risk_level : Severity
  detection_keywords : List Str
  prevention_measures : List String
  category : String
deriving DecidableEq

/-- `calculateOverallRisk`: `'low'` for no patterns, otherwise the severity
whose score is `Math.max` of the detected patterns' scores. -/
def calculateOverallRisk (ps : List SafetyPattern) : Severity :=
  if ps = [] then .low
  else scoreToSev ((ps.map fun p => sevScore p.risk_level).foldl Nat.max 0)

/-- The warning pushed for one detected pattern (the fixed English around
the interpolated pattern name is abbreviated to its leading tag). -/
def warnOf (p : SafetyPattern) : List Str :=
  match p.risk_level with
  | .critical => ["CRITICAL: ".data ++ p.pattern]
  | .high => ["HIGH RISK: ".data ++ p.pattern]
  | _ => []

/-- The `forEach` of `analyzeQuerySafety`: collect detected patterns,
warnings and recommendations in order. -/
def analyzeLoop (queryText : Str) :
    List SafetyPattern → List SafetyPattern × List Str × List String
  | [] => ([], [], [])
  | p :: ps =>
    let rest := analyzeLoop queryText ps
    if p.detection_keywords.any fun k => containsSub queryText (lowerStr k) then
      (p :: rest.1, warnOf p ++ rest.2.1, p.prevention_measures ++ rest.2.2)
    else rest

/-- Result record of `analyzeQuerySafety`. -/
structure QuerySafety where
  riskLevel : Severity
  detectedPatterns : List SafetyPattern
  recommendations : List String
  warnings : List Str
deriving DecidableEq

/-- `analyzeQuerySafety`: lower-case `query + ' ' + (context || '')`, match
every pattern's keywords by substring, and derive the overall risk. -/
def analyzeQuerySafety (patterns : List SafetyPattern) (query : Str)
    (context : Option Str) : QuerySafety :=
  let queryText := lowerStr (query ++ ' ' :: context.getD [])
  let r := analyzeLoop queryText patterns
  ⟨calculateOverallRisk r.1, r.1, dedupBy id r.2.2, r.2.1⟩

/-- `detectBias`'s indicator list. -/
def biasIndicators : List Str :=
  ["only", "always", "never", "all", "none", "every",
    "typical", "normal", "abnormal", "unusual"].map String.data

/-- `detectBias`: case-insensitive substring test of the indicators. -/
def detectBias (text : Str) : Bool :=
  biasIndicators.any fun ind => containsSub (lowerStr text) ind

/-- `detectMisinformation`'s pattern list. -/
def misinfoIndicators : List Str :=
  ["definitely", "certainly", "without doubt", "guaranteed",
    "proven fact", "scientific consensus"].map String.data

/-- `detectMisinformation`: case-insensitive substring test. -/
def detectMisinformation (text : Str) : Bool :=
  misinfoIndicators.any fun ind => containsSub (lowerStr text) ind

/-- `detectPrivacyIssues`: the four privacy regexes tested on the text. -/
def detectPrivacyIssues (text : Str) : Bool :=
  regexTest ssnRE text || regexTest ccRE text ||
    regexTest emailRE text || regexTest phoneRE text

/-- Result record of `analyzeResponseSafety`. -/
structure ResponseSafety where
  isSafe : Bool
  issues : List String
  suggestions : List String
deriving DecidableEq

/-- `analyzeResponseSafety`: run the three detectors; the response is safe
exactly when no issue was pushed. -/
def analyzeResponseSafety (response : Str) : ResponseSafety :=
  let issues :=
    (if detectBias response then ["Potential bias detected in response"] else []) ++
    (if detectMisinformation response then
      ["Potential misinformation patterns detected"] else []) ++
    (if detectPrivacyIssues response then
      ["Potential privacy concerns detected"] else [])
  let suggestions :=
    (if detectBias response then
      ["Review response for balanced perspective and diverse viewpoints"] else []) ++
    (if detectMisinformation response then
      ["Verify all facts and provide source citations"] else []) ++
    (if detectPrivacyIssues response then
      ["Remove or anonymize personal information"] else [])
  ⟨issues.length == 0, issues, suggestions⟩

end Aiid

/-! ### Citation renumbering (`deduplicateCitations` of the legal route)

The JavaScript is a global replace of `/\[\[C(\d+)\]\]/` that maps each
digit group to a fresh counter value in order of first appearance.  The
greedy `\d+` followed by the literal `]]` is equivalent to taking the
maximal digit run and then checking for `]]`, because a shorter digit run
would be followed by a digit, which is not `]`. -/

/-- The decimal digit characters. -/
def digitChar : Nat → Char
  | 0 => '0'
  | 1 => '1'
  | 2 => '2'
  | 3 => '3'
  | 4 => '4'
  | 5 => '5'
  | 6 => '6'
  | 7 => '7'
  | 8 => '8'
  | _ => '9'

/-- Fuel-driven decimal printer (`n / 10` strictly decreases, so any fuel
of at least `n` computes the digits; the zero-fuel case is unreachable from
sufficient fuel). -/
def natDigitsGo : Nat → Nat → List Char
  | 0, n => [digitChar n]
  | fuel + 1, n =>
      if n < 10 then [digitChar n]
      else natDigitsGo fuel (n / 10) ++ [digitChar (n % 10)]

/-- Decimal digits of `n` (the characters of the template `${n}`). -/
def natDigits (n : Nat) : List Char := natDigitsGo n n

/-- The maximal digit run at the front of the input, and the rest. -/
def takeDigits (l : List Char) : List Char × List Char :=
  (l.takeWhile isDigitB, l.dropWhile isDigitB)

/-- Match `/\[\[C(\d+)\]\]/` at the front of the input: the digit group and
the rest after the match. -/
def matchTok (l : List Char) : Option (List Char × List Char) :=
  if l.take 3 = ['[', '[', 'C'] ∧ (takeDigits (l.drop 3)).1 ≠ [] ∧
      (takeDigits (l.drop 3)).2.take 2 = [']', ']'] then
    some ((takeDigits (l.drop 3)).1, (takeDigits (l.drop 3)).2.drop 2)
  else none

/-- Position of a key in the seen-key list. -/
def findIdxKey : List (List Char) → List Char → Option Nat
  | [], _ => none
  | k :: ks, d => if k = d then some 0 else (findIdxKey ks d).map (· + 1)

/-- The `citationMap` / `citationCounter` step: the replacement number for a
digit group and the updated first-appearance key list. -/
def assign (seen : List (List Char)) (ds : List Char) : Nat × List (List Char) :=
  match findIdxKey seen ds with
  | some i => (i + 1, seen)
  | none => (seen.length + 1, seen ++ [ds])

/-- Fuel-driven global-replace loop of `deduplicateCitations`: scan left to
right; at a token, emit it with its assigned number; otherwise copy the
character.  A match consumes at least one character, so any fuel of at
least the text length computes the full scan. -/
def ddGoF : Nat → List Char → List (List Char) → List Char
  | 0, _, _ => []
  | _, [], _ => []
  | fuel + 1, c :: cs, seen =>
    match matchTok (c :: cs) with
    | some (ds, rest) =>
      '[' :: '[' :: 'C' ::
        (natDigits (assign seen ds).1 ++ ']' :: ']' :: ddGoF fuel rest (assign seen ds).2)
    | none => c :: ddGoF fuel cs seen

/-- The global-replace loop at full fuel. -/
def ddGo (t : List Char) (seen : List (List Char)) : List Char :=
  ddGoF t.length t seen

/-- `deduplicateCitations` from the legal route. -/
def deduplicateCitations (text : Str) : Str := ddGo text []

/-- A parsed piece of the text: a literal character or a `[[C…]]` citation
token carrying its digit group. -/
inductive Seg where
  | lit (c : Char)
  | tok (ds : List Char)
deriving DecidableEq

/-- Fuel-driven parse of the text into segments, scanning exactly the way
the global replace does. -/
def parseCitF : Nat → List Char → List Seg
  | 0, _ => []
  | _, [] => []
  | fuel + 1, c :: cs =>
    match matchTok (c :: cs) with
    | some (ds, rest) => .tok ds :: parseCitF fuel rest
    | none => .lit c :: parseCitF fuel cs

/-- The parse at full fuel. -/
def parseCit (t : List Char) : List Seg := parseCitF t.length t

/-- Renumber the tokens of a segment list in order of first appearance,
leaving literal characters unchanged. -/
def renumberSegs : List Seg → List (List Char) → List Seg
  | [], _ => []
  | .lit c :: rest, seen => .lit c :: renumberSegs rest seen
  | .tok ds :: rest, seen =>
    .tok (natDigits (assign seen ds).1) :: renumberSegs rest (assign seen ds).2

/-- Print a segment list back to text. -/
def renderSegs : List Seg → List Char
  | [] => []
  | .lit c :: rest => c :: renderSegs rest
  | .tok ds :: rest => '[' :: '[' :: 'C' :: (ds ++ ']' :: ']' :: renderSegs rest)

/-- The digit groups of the citation tokens of a text, in text order. -/
def citTokens (segs : List Seg) : List (List Char) :=
  segs.filterMap fun s => match s with | .tok ds => some ds | .lit _ => none

/-- The literal characters of a segment list, in order. -/
def citLits (segs : List Seg) : List Char :=
  segs.filterMap fun s => match s with | .lit c => some c | .tok _ => none

/-- The final seen-key list after assigning every token of a segment
list. -/
def addKeys (s : List (List Char)) : List Seg → List (List Char)
  | [] => s
  | .lit _ :: rest => addKeys s rest
  | .tok ds :: rest => addKeys (assign s ds).2 rest

/-- The canonical key list `["1", "2", …, "n"]` that a renumbered text
re-induces. -/
def canonKeys (n : Nat) : List (List Char) :=
  (List.range' 1 n).map natDigits

/-- The numeric value a digit string denotes (for relating digit groups to
the numbers they carry). -/
def digitsVal (l : List Char) : Nat :=
  l.foldl (fun a c => 10 * a + (c.toNat - 48)) 0

/-! ### The citation formatter (`citationFormatter.ts`) -/

/-- The `Citation` record of `types/chat.ts`. -/
structure Citation where
  id : String
  title : Str
  authors : List Str
  year : Option Int
  journal : Option Str
  url : Option Str
  volume : Option Str
  page : Option Str
  reporter : Option Str
  court : Option Str
  citationType : Option String
deriving DecidableEq

/-- JavaScript truthiness of an optional string (`null`, `undefined` and
`''` are falsy). -/
def strTruthy : Option Str → Bool
  | some s => !s.isEmpty
  | none => false

/-- `x || ''` for an optional string. -/
def orEmpty (o : Option Str) : Str := o.getD []

/-- `x || d` for an optional string: JS `||` takes the default when the
string is absent OR empty (the empty string is falsy). -/
def orDefault : Option Str → Str → Str
  | some s, d => if s = [] then d else s
  | none, d => d

/-- The digits of `${year}` where `year = citation.year || ''` (`0` and
`null` both give the empty string). -/
def yearStr (y : Option Int) : Str :=
  match y with
  | some v => if v ≠ 0 then (toString v).data else []
  | none => []

/-- Match `/\s+v\.\s+/i` at the front of the input, returning the rest
after the match.  The greedy `\s+` is the maximal whitespace run (a shorter
run would be followed by whitespace where `v` is required). -/
def matchVSep (l : List Char) : Option (List Char) :=
  if l.takeWhile wsChar ≠ [] ∧
      ((l.dropWhile wsChar).take 2 = ['v', '.'] ∨
        (l.dropWhile wsChar).take 2 = ['V', '.']) ∧
      ((l.dropWhile wsChar).drop 2).takeWhile wsChar ≠ [] then
    some (((l.dropWhile wsChar).drop 2).dropWhile wsChar)
  else none

/-- Fuel-driven global replace `/\s+v\.\s+/gi → ' v. '` of
`formatCaseName` (a match consumes at least one character). -/
def vRepGoF : Nat → List Char → List Char
  | 0, _ => []
  | _, [] => []
  | fuel + 1, c :: cs =>
    match matchVSep (c :: cs) with
    | some rest => ' ' :: 'v' :: '.' :: ' ' :: vRepGoF fuel rest
    | none => c :: vRepGoF fuel cs

/-- The replace at full fuel. -/
def vRepGo (t : List Char) : List Char := vRepGoF t.length t

/-- `formatCaseName`: normalise ` v. ` separators and trim. -/
def formatCaseName (t : Str) : Str := trimStr (vRepGo t)

/-- The collapse `replace(/\s+/g, ' ')`: every whitespace run becomes one
space (`prevWs` says whether the previous character was whitespace). -/
def collapseWsGo : List Char → Bool → List Char
  | [], _ => []
  | c :: cs, prevWs =>
    if wsChar c then (if prevWs then [] else [' ']) ++ collapseWsGo cs true
    else c :: collapseWsGo cs false

/-- `replace(/\s+/g, ' ')`. -/
def collapseWs (l : List Char) : List Char := collapseWsGo l false

/-- `formatLegalCitation`. -/
def formatLegalCitation (cit : Citation) : Str :=
  let caseName := formatCaseName cit.title
  let volume := orEmpty cit.volume
  let reporter := orEmpty cit.journal
  let page := orEmpty cit.page
  let year := yearStr cit.year
  if reporter ≠ [] ∧ volume ≠ [] ∧ page ≠ [] then
    caseName ++ ", ".data ++ volume ++ [' '] ++ reporter ++ [' '] ++ page ++
      " (".data ++ year ++ ")".data
  else caseName ++ " (".data ++ year ++ ")".data

/-- `formatInTextCitation`: the case name, with the year appended when the
year is truthy. -/
def formatInTextCitation (cit : Citation) : Str :=
  let caseName := formatCaseName cit.title
  match cit.year with
  | some y =>
      if y ≠ 0 then caseName ++ " (".data ++ (toString y).data ++ ")".data
      else caseName
  | none => caseName

/-- `formatReferenceAPA`: legal format when the journal looks like a case
reporter, otherwise the academic format collapsed to single spaces. -/
def formatReferenceAPA (cit : Citation) : Str :=
  if strTruthy cit.journal ∧
      (containsSub (orEmpty cit.journal) "F.".data ∨
        containsSub (orEmpty cit.journal) "U.S.".data ∨
        containsSub (orEmpty cit.journal) "S.Ct.".data) then
    formatLegalCitation cit
  else
    let authors := List.intercalate ", ".data cit.authors
    let year :=
      match cit.year with
      | some y =>
          if y ≠ 0 then "(".data ++ (toString y).data ++ ")".data
          else "(n.d.)".data
      | none => "(n.d.)".data
    let title := trimStr cit.title
    let venue :=
      if strTruthy cit.journal then [' '] ++ orEmpty cit.journal ++ ['.'] else []
    trimStr (collapseWs (authors ++ [' '] ++ year ++ ". ".data ++ title ++ ['.'] ++ venue))

/-! ### Shared list-processing helpers of the two routes -/

/-- Stable insertion for JavaScript's stable `sort` with the comparator
`(a, b) => b.score - a.score` (descending; ties keep input order). -/
def insertDesc {α : Type} (score : α → ℚ) (a : α) : List α → List α
  | [] => [a]
  | b :: rest =>
    if score b ≤ score a then a :: b :: rest else b :: insertDesc score a rest

/-- Stable sort by descending score. -/
def sortDesc {α : Type} (score : α → ℚ) : List α → List α
  | [] => []
  | a :: rest => insertDesc score a (sortDesc score rest)

/-- JavaScript `Map.get`. -/
def mapGet {κ ν : Type} [DecidableEq κ] : List (κ × ν) → κ → Option ν
  | [], _ => none
  | (k, v) :: rest, key => if k = key then some v else mapGet rest key

/-- JavaScript `Map.set`. -/
def mapSet {κ ν : Type} [DecidableEq κ] : List (κ × ν) → κ → ν → List (κ × ν)
  | [], key, val => [(key, val)]
  | (k, v) :: rest, key, val =>
    if k = key then (key, val) :: rest else (k, v) :: mapSet rest key val

/-- An external call's outcome: parsed data, a non-ok HTTP status, or a
thrown/rejected error. -/
inductive FetchOutcome (α : Type) where
  | ok (data : α)
  | httpErr (status : Nat)
  | exn (msg : String)
deriving DecidableEq

/-- Did the external call fail (non-ok status or thrown error)? -/
def FetchOutcome.isFail {α : Type} : FetchOutcome α → Bool
  | .ok _ => false
  | .httpErr _ => true
  | .exn _ => true

/-- `/\b(w₁|w₂|…)\b/i.test(s)`: some word of the list occurs with word
boundaries, case-insensitively. -/
def testWordsCI (ws : List Str) (s : Str) : Bool :=
  ws.any fun w =>
    regexTest ([.bnd] ++ (lowerStr w).map (fun a => RTok.one fun c => c = a) ++ [.bnd])
      (lowerStr s)

/-- Count of maximal non-whitespace runs. -/
def countRunsGo : Str → Bool → Nat
  | [], _ => 0
  | c :: rest, inRun =>
    if wsChar c then countRunsGo rest false
    else (if inRun then 0 else 1) + countRunsGo rest true

/-- `q.trim().split(/\s+/).length` (splitting the empty string gives the
one-element array `['']`). -/
def countWords (q : Str) : Nat :=
  let t := trimStr q
  if t = [] then 1 else countRunsGo t false

/-- An event of the server-sent stream a route emits (payloads are kept
only where a claim needs them). -/
inductive Ev where
  | status (tag : Nat)
  | queryWarning
  | citationEv (key : String)
  | textEv (content : Str)
  | respWarning
  | respInfo
  | noContentMsg
  | errorEv (msg : Str)
  | complete
deriving DecidableEq

namespace Legal

/-- The `LegalCase` record of the legal route. -/
structure LegalCase where
  caseId : String
  title : Str
  summary : Option Str
  court : Option Str
  year : Option Int
  citation : Option Str
  url : Option Str
  jurisdiction : Option Str
  areaOfLaw : Option Str
deriving DecidableEq

/-- A case with its relevance score.  The score is a JavaScript float
computed with `Math.exp` (`scoreCase`); the numeric value is abstracted to
an arbitrary `ℚ`-valued function wherever it matters, so everything proved
about the selection holds for the floating-point scores as well. -/
structure ScoredCase where
  legalCase : LegalCase
  score : ℚ
deriving DecidableEq

/-- `dedupe`: drop cases whose `caseId` was already seen. -/
def dedupe (cases : List LegalCase) : List LegalCase :=
  dedupBy (·.caseId) cases

/-- The selection loop of `selectDiverse`: walk the sorted list, skipping a
case when its `|| 'Unknown'`-defaulted court (absent and empty courts both
default) already appears twice among the selected raw courts, or its
(defaulted) year already appears three times. -/
def selectDiverseGo :
    List ScoredCase → List LegalCase → List Str → List (Int × Nat) → Nat →
      List LegalCase
  | [], selected, _, _, _ => selected
  | sc :: rest, selected, courts, years, target =>
    if selected.length ≥ target then selected
    else
      let legalCase := sc.legalCase
      let court := orDefault legalCase.court "Unknown".data
      let year := legalCase.year.getD 0
      let yCount := (mapGet years year).getD 0
      if court ∈ courts ∧ (selected.filter fun c => c.court = some court).length ≥ 2 then
        selectDiverseGo rest selected courts years target
      else if yCount ≥ 3 then
        selectDiverseGo rest selected courts years target
      else
        selectDiverseGo rest (selected ++ [legalCase]) (court :: courts)
          (mapSet years year (yCount + 1)) target

/-- `selectDiverse`: sort by descending score, then select greedily under
the diversity caps. -/
def selectDiverse (scored : List ScoredCase) (target : Nat) : List LegalCase :=
  selectDiverseGo (sortDesc ScoredCase.score scored) [] [] [] target

/-- `selectOptimal`: dedupe by id, score every remaining case, then select
diversely with the target capped at 20. -/
def selectOptimal (score : LegalCase → ℚ) (cases : List LegalCase) (target : Nat) :
    List LegalCase :=
  let unique := dedupe cases
  let scored := unique.map fun c => ScoredCase.mk c (score c)
  selectDiverse scored (min target 20)

/-- A prepared citation of the legal route. -/
structure CitationToken where
  key : String
  citation : Citation
  inText : Str
  reference : Str
  summary : Str
deriving DecidableEq

/-- The body of `prepareCitations`' indexed `map`. -/
def prepareCitation (i : Nat) (c : LegalCase) : CitationToken :=
  let cit : Citation :=
    { id := c.caseId
      title := c.title
      authors := [c.court.getD "Unknown Court".data]
      year := c.year
      journal := c.citation
      url := c.url
      volume := none
      page := none
      reporter := none
      court := c.court
      citationType := some "case" }
  { key := "C" ++ toString (i + 1)
    citation := cit
    inText := formatInTextCitation cit
    reference := formatReferenceAPA cit
    summary := c.summary.getD "No summary available.".data }

/-- The indexed `map` of `prepareCitations`, starting at index `i`. -/
def prepareCitationsGo (i : Nat) : List LegalCase → List CitationToken
  | [] => []
  | c :: rest => prepareCitation i c :: prepareCitationsGo (i + 1) rest

/-- `prepareCitations`: keys `C1`, `C2`, … in selection order. -/
def prepareCitations (cases : List LegalCase) : List CitationToken :=
  prepareCitationsGo 0 cases

/-- The word lists of `analyzeQuery`'s three regexes. -/
def recentWords : List Str :=
  ["recent", "latest", "new", "current", "2024", "2025"].map String.data

/-- `\b(compar|versus|vs|difference|better)\b`. -/
def compareWords : List Str :=
  ["compar", "versus", "vs", "difference", "better"].map String.data

/-- `\b(comprehensive|detailed|thorough|deep dive)\b`. -/
def deepWords : List Str :=
  ["comprehensive", "detailed", "thorough", "deep dive"].map String.data

/-- Result of `analyzeQuery`. -/
structure QueryAnalysis where
  caseCount : Nat
  searchVariations : Nat
deriving DecidableEq

/-- `analyzeQuery` of the legal route: case budget and number of query
variations from keyword tests and word count (later assignments win). -/
def analyzeQuery (q : Str) : QueryAnalysis :=
  let words := countWords q
  let hasRecent := testWordsCI recentWords q
  let hasCompare := testWordsCI compareWords q
  let hasComprehensive := testWordsCI deepWords q
  let c1 := if hasRecent then 20 else 15
  let c2 := if hasCompare then 25 else c1
  let c3 := if hasComprehensive then 30 else c2
  let caseCount := if words ≤ 3 then 10 else c3
  let v1 := if hasRecent || hasCompare then 2 else 1
  let searchVariations := if hasComprehensive then 3 else v1
  ⟨caseCount, searchVariations⟩

/-- `buildSearchQueries` of the legal route. -/
def buildSearchQueries (q : Str) (variations : Nat) : List Str :=
  [q] ++ (if variations ≥ 2 then [q ++ " case law".data] else []) ++
    (if variations ≥ 3 then [q ++ " precedent".data] else [])

/-- `searchLegalCases`: with no API key, or on any failure or empty result,
fall through to the final log and return no cases; never throw.  The fetch
and its JSON parsing are summarised by a `FetchOutcome` whose payload is the
already-mapped case list. -/
def searchLegalCases (hasKey : Bool) (outcome : FetchOutcome (List LegalCase))
    (limit : Nat) : List LegalCase × List String :=
  if hasKey then
    match outcome with
    | .ok results =>
        if results ≠ [] then (results.take limit, ["found real cases"])
        else ([], ["no api key or no results"])
    | .httpErr _ => ([], ["no api key or no results"])
    | .exn m => ([], ["Court Listener API failed: " ++ m, "no api key or no results"])
  else ([], ["no api key or no results"])

/-- `searchGoogleScholarLegal`: on any failure or empty parse, log and
return no cases; never throw.  The fetch plus HTML scrape is summarised by
a `FetchOutcome` whose payload is the already-parsed case list. -/
def searchGoogleScholarLegal (outcome : FetchOutcome (List LegalCase))
    (limit : Nat) : List LegalCase × List String :=
  match outcome with
  | .ok results =>
      if results ≠ [] then (results.take limit, ["found google scholar documents"])
      else ([], ["google scholar failed or empty"])
  | .httpErr _ => ([], ["google scholar failed or empty"])
  | .exn m => ([], ["Google Scholar Legal search failed: " ++ m,
      "google scholar failed or empty"])

/-- `multiSearch` of the legal route: one Court Listener search per query
variation (outcome `clOutcomes i` for the `i`-th), plus one Google Scholar
search, their results concatenated.  Also returns how many external
searches were performed. -/
def multiSearch (q : Str) (analysis : QueryAnalysis) (hasKey : Bool)
    (clOutcomes : Nat → FetchOutcome (List LegalCase))
    (gsOutcome : FetchOutcome (List LegalCase)) : List LegalCase × Nat :=
  let queries := buildSearchQueries q analysis.searchVariations
  let limitPerQuery := (analysis.caseCount + queries.length - 1) / queries.length
  let clResults := (List.range queries.length).map fun i =>
    (searchLegalCases hasKey (clOutcomes i) limitPerQuery).1
  let gsResults := (searchGoogleScholarLegal gsOutcome (min 10 analysis.caseCount)).1
  (clResults.flatten ++ gsResults, queries.length + 1)

/-- The query-risk `warning` event, emitted before any search when the
safety analysis produced warnings. -/
def warnEvents (sa : Aiid.QuerySafety) : List Ev :=
  if sa.warnings.length > 0 then [Ev.queryWarning] else []

/-- The citation events, one per prepared token in order. -/
def citeEvents (tokens : List CitationToken) : List Ev :=
  tokens.map fun t => Ev.citationEv t.key

/-- The `text` events: one per nonempty model delta, in order. -/
def textEvents (chunks : List Str) : List Ev :=
  (chunks.filter (· ≠ [])).map Ev.textEv

/-- The events following the streamed prose: the response-safety warning
and quality info computed on the deduplicated full response, the no-content
fallback, and the completion event. -/
def postludeEvents (chunks : List Str) : List Ev :=
  (if (chunks.filter (· ≠ [])) ≠ [] then
    (if (Aiid.analyzeResponseSafety
          (deduplicateCitations (chunks.filter (· ≠ [])).flatten)).isSafe = false
      then [Ev.respWarning] else []) ++
    (if (Aiid.analyzeResponseSafety
          (deduplicateCitations (chunks.filter (· ≠ [])).flatten)).suggestions.length > 0
      then [Ev.respInfo] else [])
  else []) ++
  (if (chunks.filter (· ≠ [])) = [] then [Ev.noContentMsg] else []) ++
  [Ev.complete]

/-- The stream body after the warnings: the no-cases error, or the
citation/status/text/postlude sequence. -/
def mainEvents (score : LegalCase → ℚ) (q : Str) (allCases : List LegalCase)
    (chunks : List Str) : List Ev :=
  if allCases.length = 0 then [Ev.errorEv "No legal cases found".data]
  else
    citeEvents (prepareCitations (selectOptimal score allCases (analyzeQuery q).caseCount)) ++
      [Ev.status 2, Ev.status 3] ++ textEvents chunks ++ postludeEvents chunks

/-- The event stream of the legal route's `POST` (`none` = the request was
blocked with a 400 before any stream was created).  `allCases` is the
`multiSearch` result and `chunks` the model's streamed deltas. -/
def legalPOST (patterns : List Aiid.SafetyPattern) (score : LegalCase → ℚ)
    (q : Str) (allCases : List LegalCase) (chunks : List Str) :
    Option (List Ev) :=
  if (Aiid.analyzeQuerySafety patterns q none).riskLevel = .critical then none
  else some ([Ev.status 1] ++ warnEvents (Aiid.analyzeQuerySafety patterns q none) ++
    mainEvents score q allCases chunks)

end Legal

/-- The module-level mutable `lastRequest` and `waitRateLimit`: given the
configured delay, the stored timestamp and the current time, return the
delay slept and the new stored timestamp (read after the sleep). -/
def waitRateLimit (rateDelay lastRequest now : Nat) : Nat × Nat :=
  let elapsed := now - lastRequest
  let delay := if elapsed < rateDelay then rateDelay - elapsed else 0
  (delay, now + delay)

/-- `Promise.all`: every promise fulfils and the values are collected in
order, or the aggregate rejects with a rejection. -/
def promiseAll {ε α : Type} : List (Except ε α) → Except ε (List α)
  | [] => .ok []
  | .ok a :: rest => (promiseAll rest).map (a :: ·)
  | .error e :: rest => .error e

namespace Algo

/-- An author of a paper. -/
structure Author where
  name : Str
deriving DecidableEq

/-- The `Paper` record of the paper route. -/
structure Paper where
  paperId : String
  title : Str
  abstract : Option Str
  authors : List Author
  year : Option Int
  citationCount : Int
  venue : Option Str
  url : Option Str
  tldr : Option Str
deriving DecidableEq

/-- A paper with its relevance score (`scorePaper` is floating-point
`Math.exp`/`Math.log10` arithmetic; the value is abstracted as in the legal
route). -/
structure ScoredPaper where
  paper : Paper
  score : ℚ
deriving DecidableEq

/-- `dedupe`: drop papers whose `paperId` was already seen. -/
def dedupe (papers : List Paper) : List Paper :=
  dedupBy (·.paperId) papers

/-- `CONFIG.semantic.maxRetries`. -/
def maxRetries : Nat := 3

/-- The retry loop of `searchPapers`, driven by the remaining iteration
count (`rem = maxRetries - i`): stop on a 200 with the data; sleep
`1000·(i+1)` and retry on a 429 or an error, except that an error on the
last attempt (`i = maxRetries - 1`) is rethrown; a 429 on the last attempt
falls out of the loop, which returns `[]`.  Returns the result and the
backoff delays slept. -/
def searchPapersGo (attempts : Nat → FetchOutcome (List Paper)) :
    Nat → Nat → Except String (List Paper) × List Nat
  | 0, _ => (.ok [], [])
  | rem + 1, i =>
      match attempts i with
      | .ok d => (.ok d, [])
      | .httpErr s =>
          if s = 429 then
            let r := searchPapersGo attempts rem (i + 1)
            (r.1, 1000 * (i + 1) :: r.2)
          else if i = maxRetries - 1 then
            (.error ("API error: " ++ toString s), [])
          else
            let r := searchPapersGo attempts rem (i + 1)
            (r.1, 1000 * (i + 1) :: r.2)
      | .exn m =>
          if i = maxRetries - 1 then (.error m, [])
          else
            let r := searchPapersGo attempts rem (i + 1)
            (r.1, 1000 * (i + 1) :: r.2)

/-- `searchPapers`: the whole retry loop (the missing-key throw is outside
the loop and outside the modelled claims' scope when the key is present). -/
def searchPapers (attempts : Nat → FetchOutcome (List Paper)) :
    Except String (List Paper) × List Nat :=
  searchPapersGo attempts maxRetries 0

/-- The selection loop of `selectDiverse` for papers: skip a paper when its
first-author name is truthy (present and nonempty — `author && ...`) and
already appears twice, or its (defaulted) year five times; only truthy
names enter the author set (`if (author) authors.add(author)`). -/
def selectDiverseGo :
    List ScoredPaper → List Paper → List Str → List (Int × Nat) → Nat →
      List Paper
  | [], selected, _, _, _ => selected
  | sp :: rest, selected, authors, years, target =>
    if selected.length ≥ target then selected
    else
      let paper := sp.paper
      let author := (paper.authors.head?).map Author.name
      let year := paper.year.getD 0
      let yCount := (mapGet years year).getD 0
      let authorCap : Bool :=
        match author with
        | some a => decide (a ≠ []) && decide (a ∈ authors) &&
            decide ((selected.filter fun p =>
              (p.authors.head?).map Author.name = some a).length ≥ 2)
        | none => false
      if authorCap then
        selectDiverseGo rest selected authors years target
      else if yCount ≥ 5 then
        selectDiverseGo rest selected authors years target
      else
        selectDiverseGo rest (selected ++ [paper])
          (match author with
            | some a => if a = [] then authors else a :: authors
            | none => authors)
          (mapSet years year (yCount + 1)) target

/-- `selectDiverse` of the paper route. -/
def selectDiverse (scored : List ScoredPaper) (target : Nat) : List Paper :=
  selectDiverseGo (sortDesc ScoredPaper.score scored) [] [] [] target

/-- `selectOptimal` of the paper route: dedupe, score, select diversely
with the target capped at 25. -/
def selectOptimal (score : Paper → ℚ) (papers : List Paper) (target : Nat) :
    List Paper :=
  let unique := dedupe papers
  let scored := unique.map fun p => ScoredPaper.mk p (score p)
  selectDiverse scored (min target 25)

/-- A prepared citation of the paper route. -/
structure CitationToken where
  key : String
  citation : Citation
  inText : Str
  reference : Str
  summary : Str
deriving DecidableEq

/-- The body of the paper route's `prepareCitations` map. -/
def prepareCitation (i : Nat) (p : Paper) : CitationToken :=
  let cit : Citation :=
    { id := p.paperId
      title := p.title
      authors := p.authors.map Author.name
      year := p.year
      journal := p.venue
      url := p.url
      volume := none
      page := none
      reporter := none
      court := none
      citationType := none }
  { key := "C" ++ toString (i + 1)
    citation := cit
    inText := formatInTextCitation cit
    reference := formatReferenceAPA cit
    summary := (p.tldr.orElse fun _ => (p.abstract.map (·.take 400))).getD
      "No abstract available.".data }

/-- The indexed `map` of the paper route's `prepareCitations`. -/
def prepareCitationsGo (i : Nat) : List Paper → List CitationToken
  | [] => []
  | p :: rest => prepareCitation i p :: prepareCitationsGo (i + 1) rest

/-- `prepareCitations` of the paper route. -/
def prepareCitations (papers : List Paper) : List CitationToken :=
  prepareCitationsGo 0 papers

/-- `\b(latest|recent|new|current|2024|2025)\b`. -/
def latestWords : List Str :=
  ["latest", "recent", "new", "current", "2024", "2025"].map String.data

/-- Result of the paper route's `analyzeQuery`. -/
structure QueryAnalysis where
  paperCount : Nat
  searchVariations : Nat
deriving DecidableEq

/-- `analyzeQuery` of the paper route. -/
def analyzeQuery (q : Str) : QueryAnalysis :=
  let words := countWords q
  let hasLatest := testWordsCI latestWords q
  let hasCompare := testWordsCI Legal.compareWords q
  let hasDeep := testWordsCI Legal.deepWords q
  let c1 := if hasLatest then 30 else 20
  let c2 := if hasCompare then 35 else c1
  let c3 := if hasDeep then 40 else c2
  let paperCount := if words ≤ 3 then 15 else c3
  let v1 := if hasLatest || hasCompare then 2 else 1
  let searchVariations := if hasDeep then 3 else v1
  ⟨paperCount, searchVariations⟩

/-- `buildSearchQueries` of the paper route. -/
def buildSearchQueries (q : Str) (variations : Nat) : List Str :=
  [q] ++ (if variations ≥ 2 then [q ++ " methods".data] else []) ++
    (if variations ≥ 3 then [q ++ " applications".data] else [])

/-- `multiSearch` of the paper route: one `searchPapers` per query
variation under `Promise.all`, the flattened results on overall success.
`searchResults i` is the settled result of the `i`-th variation's search. -/
def multiSearch (q : Str) (analysis : QueryAnalysis)
    (searchResults : Nat → Except String (List Paper)) :
    Except String (List Paper) :=
  let queries := buildSearchQueries q analysis.searchVariations
  (promiseAll ((List.range queries.length).map searchResults)).map List.flatten

/-- The event stream of the paper route's `POST` body: an error event when
the aggregate search rejects, otherwise the citation/status/text sequence. -/
def paperPOST (q : Str) (searchResult : Except String (List Paper))
    (score : Paper → ℚ) (chunks : List Str) : List Ev :=
  match searchResult with
  | .error e => [Ev.status 1, Ev.errorEv e.data]
  | .ok allPapers =>
    [Ev.status 1] ++
    (if allPapers.length = 0 then [Ev.errorEv "No papers found".data] else
      let analysis := analyzeQuery q
      let selected := selectOptimal score allPapers analysis.paperCount
      let tokens := prepareCitations selected
      let texts := chunks.filter (· ≠ [])
      tokens.map (fun t => Ev.citationEv t.key) ++ [Ev.status 2] ++
      texts.map Ev.textEv ++
      (if texts.isEmpty then [Ev.noContentMsg] else []) ++
      [Ev.complete])

end Algo

/-! ### Claim-side (specification) definitions

These follow the wording of the claims being checked, for comparison with
the source-derived definitions above. -/

namespace Aiid

/-- Claim wording for C1: the pattern has some detection keyword occurring
case-insensitively as a substring of the query concatenated with the
context. -/
def flaggedSpec (query : Str) (context : Option Str) (p : SafetyPattern) : Bool :=
  p.detection_keywords.any fun k =>
    containsSub (lowerStr (query ++ ' ' :: context.getD [])) (lowerStr k)

/-- The larger of two severities. -/
def sevMax (a b : Severity) : Severity :=
  if sevScore a < sevScore b then b else a

/-- The highest severity of a list (`low` for the empty list). -/
def highestSeverity (l : List Severity) : Severity := l.foldl sevMax .low

end Aiid

/-- The ordering C4 claims of an event stream: no safety-check event
(query warning or response-safety warning) after a prose (`text`) event.
The flag records whether prose has already been emitted. -/
def safetyBeforeProseGo : List Ev → Bool → Bool
  | [], _ => true
  | e :: rest, seenProse =>
    match e with
    | .textEv _ => safetyBeforeProseGo rest true
    | .queryWarning => !seenProse && safetyBeforeProseGo rest seenProse
    | .respWarning => !seenProse && safetyBeforeProseGo rest seenProse
    | _ => safetyBeforeProseGo rest seenProse

/-- Every safety-check event precedes every prose event. -/
def safetyBeforeProse (evs : List Ev) : Bool := safetyBeforeProseGo evs false

namespace Chat

/-- `generateTitle` from `chatService.ts`:
`clean.length > 50 ? clean.substring(0, 47) + '...' : clean || 'New Chat'`. -/
def generateTitle (msg : Str) : Str :=
  let clean := trimStr msg
  if clean.length > 50 then clean.take 47 ++ "...".data
  else if clean = [] then "New Chat".data
  else clean

/-- A stored chat message (the fields relevant to title derivation). -/
structure MessageRec where
  role : String
  content : Str
deriving DecidableEq

/-- A chat row: its title and its stored messages. -/
structure ChatState where
  title : Str
  messages : List MessageRec
deriving DecidableEq

/-- `addMessage` from `chatService.ts`: create the message, then—when the
role is `'user'`, the refetched chat holds exactly one message and the title
is still `'New Chat'`—set the title to `generateTitle content`. -/
def addMessage (chat : ChatState) (role : String) (content : Str) : ChatState :=
  if role = "user" ∧ (chat.messages ++ [MessageRec.mk role content]).length = 1 ∧
      chat.title = "New Chat".data then
    ⟨generateTitle content, chat.messages ++ [MessageRec.mk role content]⟩
  else ⟨chat.title, chat.messages ++ [MessageRec.mk role content]⟩

end Chat

/-! ## Theorems -/

/-- C10: counterexample.  For the whitespace-only content `"   "` the
trimmed content is empty (and has at most 50 characters), yet the title
`addMessage` derives is `'New Chat'`, not the trimmed content, so the
claim's description of the derived title fails at this input. -/
theorem c10_counterexample :
    (Chat.addMessage ⟨"New Chat".data, []⟩ "user" "   ".data).title = "New Chat".data ∧
    trimStr "   ".data = [] ∧
    (trimStr "   ".data).length ≤ 50 ∧
    (Chat.addMessage ⟨"New Chat".data, []⟩ "user" "   ".data).title ≠ trimStr "   ".data := by
  exact ⟨by decide, by decide, by decide, by decide⟩

/-- C10 (amended): `addMessage` derives the chat's title from the message
content exactly when the role is `'user'`, the chat then holds exactly one
stored message, and its title is still `'New Chat'`; the derived title is
`'New Chat'` when the trimmed content is empty, the trimmed content itself
when it is nonempty with at most 50 characters, and otherwise its first 47
characters followed by `'...'`; a derived title never exceeds 50
characters. -/
theorem c10_title_derivation (chat : Chat.ChatState) (role : String) (content : Str) :
    (Chat.addMessage chat role content).messages =
      chat.messages ++ [Chat.MessageRec.mk role content] ∧
    (Chat.addMessage chat role content).title =
      (if role = "user" ∧ (chat.messages ++ [Chat.MessageRec.mk role content]).length = 1 ∧
          chat.title = "New Chat".data
        then Chat.generateTitle content else chat.title) ∧
    Chat.generateTitle content =
      (if trimStr content = [] then "New Chat".data
        else if (trimStr content).length ≤ 50 then trimStr content
        else (trimStr content).take 47 ++ "...".data) ∧
    (Chat.generateTitle content).length ≤ 50 := by
  refine ⟨?_, ?_, ?_, ?_⟩
  · unfold Chat.addMessage
    split <;> rfl
  · unfold Chat.addMessage
    split <;> rfl
  · unfold Chat.generateTitle
    by_cases h0 : trimStr content = []
    · simp [h0]
    · by_cases h1 : (trimStr content).length ≤ 50
      · have : ¬ (trimStr content).length > 50 := by omega
        simp [h0, h1, this]
      · have : (trimStr content).length > 50 := by omega
        simp [h0, h1, this]
  · unfold Chat.generateTitle
    by_cases h1 : (trimStr content).length > 50
    · simp only [h1, if_true, List.length_append, List.length_take,
        List.length_cons, List.length_nil]
      omega
    · by_cases h0 : trimStr content = []
      · simp [h1, h0]
      · simp only [h1, if_false, h0, ite_false]
        omega

/-- C3: counterexample.  The search client's rate limiter keeps the
module-level `lastRequest` timestamp: with the rate delay 1100 ms of the
paper route, a first call at time 2000 from the initial state waits 0 ms,
while an identical second call at the same time, from the state the first
call left behind, waits the full 1100 ms — the client's behavior depends on
state left by earlier calls in the process, so it is not stateless. -/
theorem c3_counterexample :
    (waitRateLimit 1100 0 2000).1 = 0 ∧
    (waitRateLimit 1100 (waitRateLimit 1100 0 2000).2 2000).1 = 1100 ∧
    (waitRateLimit 1100 0 2000).1 ≠
      (waitRateLimit 1100 (waitRateLimit 1100 0 2000).2 2000).1 := by
  exact ⟨by decide, by decide, by decide⟩

/-- C3 (amended): the score-and-diversify selector and the citation
formatter are pure functions of their inputs (they are embedded here as
such; the routes keep no module-level mutable state besides `lastRequest`),
but the rate-limited search client is not stateless: its wait is computed
from the module-level `lastRequest` timestamp written by the previous call.
The wait never exceeds the configured delay, it is zero exactly when the
configured delay has already elapsed, and the stored timestamp advances so
that consecutive requests are spaced at least the configured delay apart. -/
theorem c3_rate_limiter_state (rateDelay lastRequest now : Nat)
    (h : lastRequest ≤ now) :
    (waitRateLimit rateDelay lastRequest now).1 ≤ rateDelay ∧
    lastRequest + rateDelay ≤ (waitRateLimit rateDelay lastRequest now).2 ∧
    ((waitRateLimit rateDelay lastRequest now).1 = 0 ↔
      rateDelay ≤ now - lastRequest) := by
  refine ⟨?_, ?_, ?_⟩ <;> (simp only [waitRateLimit]; split <;> omega)

/-- Witness for `c3_rate_limiter_state` at concrete inputs. -/
theorem c3_rate_limiter_state_witness :
    (waitRateLimit 500 100 700).1 ≤ 500 ∧
    100 + 500 ≤ (waitRateLimit 500 100 700).2 ∧
    ((waitRateLimit 500 100 700).1 = 0 ↔ 500 ≤ 700 - 100) :=
  c3_rate_limiter_state 500 100 700 (by decide)

/-- The legal diversity loop never grows the selection beyond the target. -/
theorem legal_selectDiverseGo_length_le (scored : List Legal.ScoredCase) :
    ∀ selected courts years target, selected.length ≤ target →
      (Legal.selectDiverseGo scored selected courts years target).length ≤ target := by
  induction scored with
  | nil => intro selected courts years target h; exact h
  | cons sc rest ih =>
    intro selected courts years target h
    simp only [Legal.selectDiverseGo]
    split
    · exact h
    · rename_i hlt
      split
      · exact ih _ _ _ _ h
      · split
        · exact ih _ _ _ _ h
        · refine ih _ _ _ _ ?_
          simp only [List.length_append, List.length_cons, List.length_nil]
          omega

/-- The paper diversity loop never grows the selection beyond the target. -/
theorem algo_selectDiverseGo_length_le (scored : List Algo.ScoredPaper) :
    ∀ selected authors years target, selected.length ≤ target →
      (Algo.selectDiverseGo scored selected authors years target).length ≤ target := by
  induction scored with
  | nil => intro selected authors years target h; exact h
  | cons sp rest ih =>
    intro selected authors years target h
    simp only [Algo.selectDiverseGo]
    split
    · exact h
    · rename_i hlt
      split
      · exact ih _ _ _ _ h
      · split
        · exact ih _ _ _ _ h
        · refine ih _ _ _ _ ?_
          simp only [List.length_append, List.length_cons, List.length_nil]
          omega

/-- C7: the selection stage is bounded to small result sets.  `selectOptimal`
returns at most `min target 25` papers in the paper route and at most
`min target 20` cases in the legal route (for any scoring function), while
the query analyzers request at most 40 papers / 30 cases and do reach those
maxima. -/
theorem c7_selection_bounded :
    (∀ (score : Legal.LegalCase → ℚ) (cases : List Legal.LegalCase) (target : Nat),
        (Legal.selectOptimal score cases target).length ≤ min target 20) ∧
    (∀ (score : Algo.Paper → ℚ) (papers : List Algo.Paper) (target : Nat),
        (Algo.selectOptimal score papers target).length ≤ min target 25) ∧
    (∀ q : Str, (Legal.analyzeQuery q).caseCount ≤ 30) ∧
    (∀ q : Str, (Algo.analyzeQuery q).paperCount ≤ 40) ∧
    (Legal.analyzeQuery "comprehensive analysis of privacy law".data).caseCount = 30 ∧
    (Algo.analyzeQuery "comprehensive analysis of privacy law".data).paperCount = 40 := by
  refine ⟨?_, ?_, ?_, ?_, by decide, by decide⟩
  · intro score cases target
    exact legal_selectDiverseGo_length_le _ _ _ _ _ (Nat.zero_le _)
  · intro score papers target
    exact algo_selectDiverseGo_length_le _ _ _ _ _ (Nat.zero_le _)
  · intro q
    simp only [Legal.analyzeQuery]
    split_ifs <;> simp
  · intro q
    simp only [Algo.analyzeQuery]
    split_ifs <;> simp

/-- A position holding a value not in the right part of an append lies in
the left part. -/
theorem pos_lt_left {α : Type} {l1 l2 : List α} {n : Nat} {x : α}
    (h : (l1 ++ l2).get? n = some x) (hx : x ∉ l2) : n < l1.length := by
  by_contra hn
  push_neg at hn
  rw [List.get?_append_right hn] at h
  exact hx (List.get?_mem h)

/-- A position holding a value not in the left part of an append lies in
the right part. -/
theorem pos_ge_left {α : Type} {l1 l2 : List α} {n : Nat} {x : α}
    (h : (l1 ++ l2).get? n = some x) (hx : x ∉ l1) : l1.length ≤ n := by
  by_contra hn
  push_neg at hn
  rw [List.get?_append hn] at h
  exact hx (List.get?_mem h)

/-- In a split list, anything confined to the left part precedes anything
confined to the right part. -/
theorem split_order {α : Type} {l l1 l2 : List α} {x y : α}
    (hs : l = l1 ++ l2) (hx : x ∉ l2) (hy : y ∉ l1) :
    ∀ i j, l.get? i = some x → l.get? j = some y → i < j := by
  subst hs
  intro i j hi hj
  exact lt_of_lt_of_le (pos_lt_left hi hx) (pos_ge_left hj hy)

/-- No prose event among the query-warning events. -/
theorem textEv_not_mem_warnEvents (sa : Aiid.QuerySafety) (c : Str) :
    Ev.textEv c ∉ Legal.warnEvents sa := by
  unfold Legal.warnEvents
  split <;> simp

/-- No prose event after the prose: the postlude holds only safety, info,
fallback and completion events. -/
theorem textEv_not_mem_postludeEvents (chunks : List Str) (c : Str) :
    Ev.textEv c ∉ Legal.postludeEvents chunks := by
  unfold Legal.postludeEvents
  split_ifs <;> simp

/-- The query warning is never re-emitted in the stream body. -/
theorem queryWarning_not_mem_mainEvents (score : Legal.LegalCase → ℚ) (q : Str)
    (allCases : List Legal.LegalCase) (chunks : List Str) :
    Ev.queryWarning ∉ Legal.mainEvents score q allCases chunks := by
  unfold Legal.mainEvents Legal.citeEvents Legal.textEvents Legal.postludeEvents
  split_ifs <;> simp

/-- The response-safety warning never occurs before the prose: it is absent
from the status, query-warning, citation and text events. -/
theorem respWarning_not_mem_pre (sa : Aiid.QuerySafety)
    (tokens : List Legal.CitationToken) (chunks : List Str) :
    Ev.respWarning ∉
      [Ev.status 1] ++ (Legal.warnEvents sa ++ (Legal.citeEvents tokens ++
        ([Ev.status 2, Ev.status 3] ++ Legal.textEvents chunks))) := by
  unfold Legal.warnEvents Legal.citeEvents Legal.textEvents
  split_ifs <;> simp

/-- C4: counterexample.  A run of the legal route with no query risks, one
found case and the single generated chunk `"Courts always rule"` (which the
response-safety analyzer flags for bias) emits the prose `text` event at
position 4 and the response-safety warning only afterwards at position 5:
the response-safety check result is produced after the generated prose is
sent, so the safety checks are not all applied before display. -/
theorem c4_counterexample :
    Legal.legalPOST [] (fun _ => 0) "law".data
        [⟨"a", "A".data, none, none, some 2020, none, none, none, none⟩]
        ["Courts always rule".data] =
      some [Ev.status 1, Ev.citationEv "C1", Ev.status 2, Ev.status 3,
        Ev.textEv "Courts always rule".data, Ev.respWarning, Ev.respInfo,
        Ev.complete] ∧
    safetyBeforeProse [Ev.status 1, Ev.citationEv "C1", Ev.status 2, Ev.status 3,
        Ev.textEv "Courts always rule".data, Ev.respWarning, Ev.respInfo,
        Ev.complete] = false := by
  exact ⟨by decide, by decide⟩

/-- C4 (amended): in every event stream of the legal research endpoint, the
query-risk results precede the prose — a critical query risk blocks the
request before any stream exists, and a query warning event always precedes
every `text` event — while the response-safety warning is only emitted
after all generated prose has been streamed. -/
theorem c4_safety_check_order (patterns : List Aiid.SafetyPattern)
    (score : Legal.LegalCase → ℚ) (q : Str) (allCases : List Legal.LegalCase)
    (chunks : List Str) :
    ((Aiid.analyzeQuerySafety patterns q none).riskLevel = .critical →
      Legal.legalPOST patterns score q allCases chunks = none) ∧
    (∀ evs, Legal.legalPOST patterns score q allCases chunks = some evs →
      (∀ i j c, evs.get? i = some (Ev.textEv c) →
        evs.get? j = some Ev.queryWarning → j < i) ∧
      (∀ i j c, evs.get? i = some (Ev.textEv c) →
        evs.get? j = some Ev.respWarning → i < j)) := by
  constructor
  · intro h
    simp [Legal.legalPOST, h]
  · intro evs hevs
    unfold Legal.legalPOST at hevs
    split at hevs
    · exact absurd hevs (by simp)
    · simp only [Option.some.injEq] at hevs
      subst hevs
      constructor
      · intro i j c hi hj
        have hs :
            [Ev.status 1] ++ Legal.warnEvents (Aiid.analyzeQuerySafety patterns q none) ++
              Legal.mainEvents score q allCases chunks =
            ([Ev.status 1] ++ Legal.warnEvents (Aiid.analyzeQuerySafety patterns q none)) ++
              Legal.mainEvents score q allCases chunks := by
          simp [List.append_assoc]
        rw [hs] at hi hj
        refine lt_of_lt_of_le
          (pos_lt_left hj (queryWarning_not_mem_mainEvents score q allCases chunks))
          (pos_ge_left hi ?_)
        have := textEv_not_mem_warnEvents (Aiid.analyzeQuerySafety patterns q none) c
        simp [this]
      · intro i j c hi hj
        by_cases hcc : allCases.length = 0
        · exfalso
          have hm := List.get?_mem hi
          unfold Legal.mainEvents at hm
          rw [if_pos hcc] at hm
          have hw := textEv_not_mem_warnEvents (Aiid.analyzeQuerySafety patterns q none) c
          simp [hw] at hm
        · unfold Legal.mainEvents at hi hj
          rw [if_neg hcc] at hi hj
          have hs :
              [Ev.status 1] ++ Legal.warnEvents (Aiid.analyzeQuerySafety patterns q none) ++
                (Legal.citeEvents (Legal.prepareCitations (Legal.selectOptimal score allCases
                    (Legal.analyzeQuery q).caseCount)) ++
                  [Ev.status 2, Ev.status 3] ++ Legal.textEvents chunks ++
                  Legal.postludeEvents chunks) =
              ([Ev.status 1] ++ (Legal.warnEvents (Aiid.analyzeQuerySafety patterns q none) ++
                (Legal.citeEvents (Legal.prepareCitations (Legal.selectOptimal score allCases
                    (Legal.analyzeQuery q).caseCount)) ++
                  ([Ev.status 2, Ev.status 3] ++ Legal.textEvents chunks)))) ++
                Legal.postludeEvents chunks := by
            simp [List.append_assoc]
          rw [hs] at hi hj
          exact lt_of_lt_of_le
            (pos_lt_left hi (textEv_not_mem_postludeEvents chunks c))
            (pos_ge_left hj (respWarning_not_mem_pre _ _ _))

/-- Witness for `c4_safety_check_order`: in a concrete run whose stream is
`[status, queryWarning, citation, status, status, text, respWarning,
respInfo, complete]`, the query warning (position 1) precedes the prose
(position 5), which precedes the response-safety warning (position 6). -/
theorem c4_safety_check_order_witness : (1 : Nat) < 5 ∧ (5 : Nat) < 6 := by
  have h := (c4_safety_check_order
    [⟨"risk".data, .high, ["law".data], [], "security"⟩] (fun _ => 0)
    "law about things".data
    [⟨"a", "A".data, none, none, some 2020, none, none, none, none⟩]
    ["Courts always rule".data]).2
    [Ev.status 1, Ev.queryWarning, Ev.citationEv "C1", Ev.status 2, Ev.status 3,
      Ev.textEv "Courts always rule".data, Ev.respWarning, Ev.respInfo, Ev.complete]
    (by decide)
  exact ⟨h.1 5 1 "Courts always rule".data (by decide) (by decide),
    h.2 5 6 "Courts always rule".data (by decide) (by decide)⟩


/-- `Map.get` after `Map.set` at the same key. -/
theorem mapGet_set_self {κ ν : Type} [DecidableEq κ] (m : List (κ × ν)) (k : κ) (v : ν) :
    mapGet (mapSet m k v) k = some v := by
  induction m with
  | nil => simp [mapSet, mapGet]
  | cons kv rest ih =>
    obtain ⟨k', v'⟩ := kv
    by_cases h : k' = k
    · subst h; simp [mapSet, mapGet]
    · simp [mapSet, mapGet, h, ih]

/-- `Map.set` leaves other keys unchanged. -/
theorem mapGet_set_ne {κ ν : Type} [DecidableEq κ] (m : List (κ × ν)) (k k' : κ) (v : ν)
    (h : k ≠ k') : mapGet (mapSet m k v) k' = mapGet m k' := by
  induction m with
  | nil => simp [mapSet, mapGet, h]
  | cons kv rest ih =>
    obtain ⟨k2, v2⟩ := kv
    by_cases h2 : k2 = k
    · subst h2; simp [mapSet, mapGet, h]
    · simp [mapSet, mapGet, h2, ih]

/-- Invariant of the legal selection loop: every selected case's nonempty
court string is in the court set, and every nonempty court string occurs at
most twice among the selected raw courts (absent and empty courts default
to `'Unknown'`, which the raw-court cap filter never matches). -/
theorem legal_court_cap (scored : List Legal.ScoredCase) :
    ∀ selected courts years target,
      (∀ c ∈ selected, ∀ ct : Str, ct ≠ [] → c.court = some ct → ct ∈ courts) →
      (∀ ct : Str, ct ≠ [] →
        (selected.filter fun c => c.court = some ct).length ≤ 2) →
      ∀ ct : Str, ct ≠ [] →
        ((Legal.selectDiverseGo scored selected courts years target).filter
          fun c => c.court = some ct).length ≤ 2 := by
  induction scored with
  | nil => intro selected courts years target h1 h2 ct hct; exact h2 ct hct
  | cons sc rest ih =>
    intro selected courts years target h1 h2 ct hct
    simp only [Legal.selectDiverseGo]
    split
    · exact h2 ct hct
    · split
      · exact ih _ _ _ _ h1 h2 ct hct
      · split
        · exact ih _ _ _ _ h1 h2 ct hct
        · rename_i hlt hcap hyear
          apply ih
          · intro c hc ct' hct'ne hcc
            rcases List.mem_append.mp hc with hc | hc
            · exact List.mem_cons_of_mem _ (h1 c hc ct' hct'ne hcc)
            · simp only [List.mem_singleton] at hc
              subst hc
              have hdef : orDefault sc.legalCase.court "Unknown".data = ct' := by
                rw [hcc]
                simp [orDefault, hct'ne]
              rw [← hdef]
              exact List.mem_cons_self _ _
          · intro ct' hct'ne
            rw [List.filter_append, List.length_append]
            by_cases hmatch : sc.legalCase.court = some ct'
            · have hct' : orDefault sc.legalCase.court "Unknown".data = ct' := by
                rw [hmatch]
                simp [orDefault, hct'ne]
              have hone : (List.filter (fun c => decide (c.court = some ct')) [sc.legalCase]).length ≤ 1 := by
                simp [List.filter]
                split <;> simp
              have hcount : (selected.filter fun c => c.court = some ct').length ≤ 1 := by
                by_cases hin : orDefault sc.legalCase.court "Unknown".data ∈ courts
                · have hnot : ¬ ((selected.filter fun c =>
                      c.court = some (orDefault sc.legalCase.court "Unknown".data)).length ≥ 2) :=
                    fun hge => hcap ⟨hin, hge⟩
                  rw [hct'] at hnot
                  omega
                · have hnil : selected.filter (fun c => c.court = some ct') = [] := by
                    rw [List.filter_eq_nil_iff]
                    intro c hc hcc
                    simp only [decide_eq_true_eq] at hcc
                    apply hin
                    rw [hct']
                    exact h1 c hc ct' hct'ne hcc
                  simp [hnil]
              omega
            · have hzero : (List.filter (fun c => decide (c.court = some ct')) [sc.legalCase]).length = 0 := by
                simp [hmatch]
              rw [hzero]
              have := h2 ct' hct'ne
              omega
          · exact hct

/-- Invariant of the legal selection loop: the per-year tallies bound the
per-year counts of the selection, and never exceed three. -/
theorem legal_year_cap (scored : List Legal.ScoredCase) :
    ∀ selected courts years target,
      (∀ y : Int, (selected.filter fun c => c.year.getD 0 = y).length ≤
        (mapGet years y).getD 0) →
      (∀ y : Int, (mapGet years y).getD 0 ≤ 3) →
      ∀ y : Int,
        ((Legal.selectDiverseGo scored selected courts years target).filter
          fun c => c.year.getD 0 = y).length ≤ 3 := by
  induction scored with
  | nil => intro s c ys t h1 h2 y; exact le_trans (h1 y) (h2 y)
  | cons sc rest ih =>
    intro selected courts years target h1 h2 y
    simp only [Legal.selectDiverseGo]
    split
    · exact le_trans (h1 y) (h2 y)
    · split
      · exact ih _ _ _ _ h1 h2 y
      · split
        · exact ih _ _ _ _ h1 h2 y
        · rename_i hlt hcap hyear
          apply ih
          · intro y'
            rw [List.filter_append, List.length_append]
            by_cases hm : sc.legalCase.year.getD 0 = y'
            · rw [← hm]
              rw [mapGet_set_self]
              have hone : (List.filter (fun c =>
                  decide (c.year.getD 0 = sc.legalCase.year.getD 0)) [sc.legalCase]).length = 1 := by
                simp
              have := h1 (sc.legalCase.year.getD 0)
              simp only [Option.getD_some]
              omega
            · rw [mapGet_set_ne _ _ _ _ (fun hh => hm hh)]
              have hzero : (List.filter (fun c => decide (c.year.getD 0 = y')) [sc.legalCase]).length = 0 := by
                simp [hm]
              have := h1 y'
              omega
          · intro y'
            by_cases hm : sc.legalCase.year.getD 0 = y'
            · rw [← hm, mapGet_set_self]
              simp only [Option.getD_some]
              omega
            · rw [mapGet_set_ne _ _ _ _ (fun hh => hm hh)]
              exact h2 y'

/-- Invariant of the paper selection loop: every selected paper's truthy
(present, nonempty) first-author name is in the author set, and each
nonempty name occurs at most twice (empty names are falsy in the source's
`author && ...` guard and `if (author)` insertion, so they are never
capped). -/
theorem algo_author_cap (scored : List Algo.ScoredPaper) :
    ∀ selected authors years target,
      (∀ p ∈ selected, ∀ a : Str, a ≠ [] →
        (p.authors.head?).map Algo.Author.name = some a → a ∈ authors) →
      (∀ a : Str, a ≠ [] → (selected.filter fun p =>
        (p.authors.head?).map Algo.Author.name = some a).length ≤ 2) →
      ∀ a : Str, a ≠ [] →
        ((Algo.selectDiverseGo scored selected authors years target).filter
          fun p => (p.authors.head?).map Algo.Author.name = some a).length ≤ 2 := by
  induction scored with
  | nil => intro s au ys t h1 h2 a ha; exact h2 a ha
  | cons sp rest ih =>
    intro selected authors years target h1 h2 a ha
    simp only [Algo.selectDiverseGo]
    split
    · exact h2 a ha
    · split
      · exact ih _ _ _ _ h1 h2 a ha
      · split
        · exact ih _ _ _ _ h1 h2 a ha
        · rename_i hlt hcap hyear
          rcases haut : (sp.paper.authors.head?).map Algo.Author.name with _ | a0
          · apply ih
            · intro p hp a' ha'ne ha'
              rcases List.mem_append.mp hp with hp | hp
              · exact h1 p hp a' ha'ne ha'
              · simp only [List.mem_singleton] at hp
                subst hp
                rw [haut] at ha'
                exact absurd ha' (by simp)
            · intro a' ha'ne
              rw [List.filter_append, List.length_append]
              have hnone : sp.paper.authors.head? = none := by
                simpa using haut
              have hzero : (List.filter (fun p =>
                  decide ((p.authors.head?).map Algo.Author.name = some a')) [sp.paper]).length = 0 := by
                simp [hnone]
              rw [hzero]
              have := h2 a' ha'ne
              omega
            · exact ha
          · by_cases ha0 : a0 = []
            · subst ha0
              dsimp only
              rw [if_pos rfl]
              apply ih
              · intro p hp a' ha'ne ha'
                rcases List.mem_append.mp hp with hp | hp
                · exact h1 p hp a' ha'ne ha'
                · simp only [List.mem_singleton] at hp
                  subst hp
                  rw [haut] at ha'
                  simp only [Option.some.injEq] at ha'
                  exact absurd ha'.symm ha'ne
              · intro a' ha'ne
                rw [List.filter_append, List.length_append]
                have hzero : (List.filter (fun p =>
                    decide ((p.authors.head?).map Algo.Author.name = some a')) [sp.paper]).length = 0 := by
                  rw [List.filter_singleton, haut]
                  have hnea : ¬ (some ([] : Str) = some a') := by
                    intro he
                    exact ha'ne (Option.some.inj he).symm
                  simp [hnea]
                rw [hzero]
                have := h2 a' ha'ne
                omega
              · exact ha
            · rw [haut] at hcap
              have hcap2 : a0 ∈ authors →
                  ¬ ((selected.filter fun p =>
                    (p.authors.head?).map Algo.Author.name = some a0).length ≥ 2) := by
                intro hin hge
                apply hcap
                show (decide (a0 ≠ []) && decide (a0 ∈ authors) &&
                    decide ((selected.filter fun p =>
                      (p.authors.head?).map Algo.Author.name = some a0).length ≥ 2)) = true
                rw [decide_eq_true ha0, decide_eq_true hin, decide_eq_true hge]
                rfl
              dsimp only
              rw [if_neg ha0]
              apply ih
              · intro p hp a' ha'ne ha'
                rcases List.mem_append.mp hp with hp | hp
                · exact List.mem_cons_of_mem _ (h1 p hp a' ha'ne ha')
                · simp only [List.mem_singleton] at hp
                  subst hp
                  rw [haut] at ha'
                  simp only [Option.some.injEq] at ha'
                  subst ha'
                  exact List.mem_cons_self _ _
              · intro a' ha'ne
                rw [List.filter_append, List.length_append]
                by_cases hm : a0 = a'
                · subst hm
                  have hone : (List.filter (fun p =>
                      decide ((p.authors.head?).map Algo.Author.name = some a0)) [sp.paper]).length = 1 := by
                    rw [List.filter_singleton, haut]
                    simp
                  rw [hone]
                  by_cases hin : a0 ∈ authors
                  · have := hcap2 hin
                    omega
                  · have hnil : selected.filter (fun p =>
                        (p.authors.head?).map Algo.Author.name = some a0) = [] := by
                      rw [List.filter_eq_nil_iff]
                      intro p hp hpp
                      simp only [decide_eq_true_eq] at hpp
                      exact hin (h1 p hp a0 ha0 hpp)
                    rw [hnil]
                    simp
                · have hzero : (List.filter (fun p =>
                      decide ((p.authors.head?).map Algo.Author.name = some a')) [sp.paper]).length = 0 := by
                    rw [List.filter_singleton, haut]
                    simp [hm]
                  rw [hzero]
                  have := h2 a' ha'ne
                  omega
              · exact ha

/-- Invariant of the paper selection loop: the per-year tallies bound the
per-year counts of the selection, and never exceed five. -/
theorem algo_year_cap (scored : List Algo.ScoredPaper) :
    ∀ selected authors years target,
      (∀ y : Int, (selected.filter fun p => p.year.getD 0 = y).length ≤
        (mapGet years y).getD 0) →
      (∀ y : Int, (mapGet years y).getD 0 ≤ 5) →
      ∀ y : Int,
        ((Algo.selectDiverseGo scored selected authors years target).filter
          fun p => p.year.getD 0 = y).length ≤ 5 := by
  induction scored with
  | nil => intro s au ys t h1 h2 y; exact le_trans (h1 y) (h2 y)
  | cons sp rest ih =>
    intro selected authors years target h1 h2 y
    simp only [Algo.selectDiverseGo]
    split
    · exact le_trans (h1 y) (h2 y)
    · split
      · exact ih _ _ _ _ h1 h2 y
      · split
        · exact ih _ _ _ _ h1 h2 y
        · rename_i hlt hcap hyear
          apply ih
          · intro y'
            rw [List.filter_append, List.length_append]
            by_cases hm : sp.paper.year.getD 0 = y'
            · rw [← hm]
              rw [mapGet_set_self]
              have hone : (List.filter (fun p =>
                  decide (p.year.getD 0 = sp.paper.year.getD 0)) [sp.paper]).length = 1 := by
                simp
              have := h1 (sp.paper.year.getD 0)
              simp only [Option.getD_some]
              omega
            · rw [mapGet_set_ne _ _ _ _ (fun hh => hm hh)]
              have hzero : (List.filter (fun p =>
                  decide (p.year.getD 0 = y')) [sp.paper]).length = 0 := by
                simp [hm]
              have := h1 y'
              omega
          · intro y'
            by_cases hm : sp.paper.year.getD 0 = y'
            · rw [← hm, mapGet_set_self]
              simp only [Option.getD_some]
              omega
            · rw [mapGet_set_ne _ _ _ _ (fun hh => hm hh)]
              exact h2 y'

/-- C8 (amended): `selectDiverse` returns at most `target` items; in the
legal route every present, nonempty court string appears at most twice
among the selected raw courts and every year (nulls counting as year 0) at
most three times; in the paper route every nonempty first-author name
appears at most twice and every year at most five times.  (Cases whose
court is null or the empty string bypass the court cap — the skip filter
compares raw courts with the `||`-defaulted `'Unknown'` value — and papers
whose first-author name is missing or empty bypass the author cap, because
the empty name is falsy in the `author && ...` guard.) -/
theorem c8_diversity_caps :
    (∀ (scored : List Legal.ScoredCase) (target : Nat),
      (Legal.selectDiverse scored target).length ≤ target ∧
      (∀ court : Str, court ≠ [] → ((Legal.selectDiverse scored target).filter
          fun c => c.court = some court).length ≤ 2) ∧
      (∀ y : Int, ((Legal.selectDiverse scored target).filter
          fun c => c.year.getD 0 = y).length ≤ 3)) ∧
    (∀ (scored : List Algo.ScoredPaper) (target : Nat),
      (Algo.selectDiverse scored target).length ≤ target ∧
      (∀ a : Str, a ≠ [] → ((Algo.selectDiverse scored target).filter
          fun p => (p.authors.head?).map Algo.Author.name = some a).length ≤ 2) ∧
      (∀ y : Int, ((Algo.selectDiverse scored target).filter
          fun p => p.year.getD 0 = y).length ≤ 5)) := by
  constructor
  · intro scored target
    refine ⟨legal_selectDiverseGo_length_le _ _ _ _ _ (Nat.zero_le _), ?_, ?_⟩
    · exact legal_court_cap _ _ _ _ _ (by simp) (by simp)
    · exact legal_year_cap _ _ _ _ _ (by simp [mapGet]) (by simp [mapGet])
  · intro scored target
    refine ⟨algo_selectDiverseGo_length_le _ _ _ _ _ (Nat.zero_le _), ?_, ?_⟩
    · exact algo_author_cap _ _ _ _ _ (by simp) (by simp)
    · exact algo_year_cap _ _ _ _ _ (by simp [mapGet]) (by simp [mapGet])

/-- C8 witness: the nonempty-court and nonempty-author caps instantiate at
concrete selections. -/
theorem c8_diversity_caps_witness :
    ("NY".data ≠ ([] : Str) ∧
      ((Legal.selectDiverse
        [⟨⟨"a", "A".data, none, some "NY".data, some 2020, none, none, none, none⟩, 3⟩,
          ⟨⟨"b", "B".data, none, some "NY".data, some 2021, none, none, none, none⟩, 2⟩,
          ⟨⟨"c", "C".data, none, some "NY".data, some 2022, none, none, none, none⟩, 1⟩]
        10).filter fun c => c.court = some "NY".data).length ≤ 2) ∧
    ("Ann".data ≠ ([] : Str) ∧
      ((Algo.selectDiverse
        [⟨⟨"p", "P".data, none, [⟨"Ann".data⟩], some 2020, 0, none, none, none⟩, 3⟩,
          ⟨⟨"q", "Q".data, none, [⟨"Ann".data⟩], some 2021, 0, none, none, none⟩, 2⟩,
          ⟨⟨"r", "R".data, none, [⟨"Ann".data⟩], some 2022, 0, none, none, none⟩, 1⟩]
        10).filter fun p =>
          (p.authors.head?).map Algo.Author.name = some "Ann".data).length ≤ 2) :=
  ⟨⟨by decide,
    (c8_diversity_caps.1
      [⟨⟨"a", "A".data, none, some "NY".data, some 2020, none, none, none, none⟩, 3⟩,
        ⟨⟨"b", "B".data, none, some "NY".data, some 2021, none, none, none, none⟩, 2⟩,
        ⟨⟨"c", "C".data, none, some "NY".data, some 2022, none, none, none, none⟩, 1⟩]
      10).2.1 "NY".data (by decide)⟩,
   ⟨by decide,
    (c8_diversity_caps.2
      [⟨⟨"p", "P".data, none, [⟨"Ann".data⟩], some 2020, 0, none, none, none⟩, 3⟩,
        ⟨⟨"q", "Q".data, none, [⟨"Ann".data⟩], some 2021, 0, none, none, none⟩, 2⟩,
        ⟨⟨"r", "R".data, none, [⟨"Ann".data⟩], some 2022, 0, none, none, none⟩, 1⟩]
      10).2.1 "Ann".data (by decide)⟩⟩

/-- C8: counterexample.  Three cases with `court = null` and distinct years
are all selected (the skip filter compares raw courts with the defaulted
`'Unknown'` string, which never matches a null court), so the `'Unknown'`
default appears three times — the claim that no court, including the
`'Unknown'` default, appears more than twice is false.  Likewise three
cases whose court is the empty string are all selected (the empty string is
falsy, so `court || 'Unknown'` defaults it, and the raw-court filter never
matches), and three papers whose first-author name is the empty string are
all selected (the empty name is falsy in the source's `author && ...`
guard), so the program does not cap the empty-string court or author name
at two either. -/
theorem c8_counterexample :
    (((Legal.selectDiverse
      [⟨⟨"a", "A".data, none, none, some 2020, none, none, none, none⟩, 3⟩,
        ⟨⟨"b", "B".data, none, none, some 2021, none, none, none, none⟩, 2⟩,
        ⟨⟨"c", "C".data, none, none, some 2022, none, none, none, none⟩, 1⟩] 10).map
      (fun c => c.court.getD "Unknown".data)).count "Unknown".data = 3) ∧
    ¬ (∀ court : Str, (((Legal.selectDiverse
      [⟨⟨"a", "A".data, none, none, some 2020, none, none, none, none⟩, 3⟩,
        ⟨⟨"b", "B".data, none, none, some 2021, none, none, none, none⟩, 2⟩,
        ⟨⟨"c", "C".data, none, none, some 2022, none, none, none, none⟩, 1⟩] 10).map
      (fun c => c.court.getD "Unknown".data)).count court ≤ 2)) ∧
    (((Legal.selectDiverse
      [⟨⟨"a", "A".data, none, some [], some 2020, none, none, none, none⟩, 3⟩,
        ⟨⟨"b", "B".data, none, some [], some 2021, none, none, none, none⟩, 2⟩,
        ⟨⟨"c", "C".data, none, some [], some 2022, none, none, none, none⟩, 1⟩] 10).filter
      (fun c => c.court = some [])).length = 3) ∧
    (((Algo.selectDiverse
      [⟨⟨"p", "P".data, none, [⟨[]⟩], some 2020, 0, none, none, none⟩, 3⟩,
        ⟨⟨"q", "Q".data, none, [⟨[]⟩], some 2021, 0, none, none, none⟩, 2⟩,
        ⟨⟨"r", "R".data, none, [⟨[]⟩], some 2022, 0, none, none, none⟩, 1⟩] 10).filter
      (fun p => (p.authors.head?).map Algo.Author.name = some [])).length = 3) := by
  refine ⟨by decide, fun h => absurd (h "Unknown".data) (by decide), by decide, by decide⟩

/-- The detected-patterns accumulator of the `forEach` is exactly a filter
by the keyword-substring test. -/
theorem analyzeLoop_fst (queryText : Str) (ps : List Aiid.SafetyPattern) :
    (Aiid.analyzeLoop queryText ps).1 =
      ps.filter fun p => p.detection_keywords.any fun k =>
        containsSub queryText (lowerStr k) := by
  induction ps with
  | nil => rfl
  | cons p rest ih =>
    simp only [Aiid.analyzeLoop, List.filter_cons]
    split <;> rename_i h
    · simpa using ih
    · exact ih

/-- Round trip of severity scores. -/
theorem scoreToSev_sevScore (s : Aiid.Severity) :
    Aiid.scoreToSev (Aiid.sevScore s) = s := by
  cases s <;> rfl

/-- `Math.max` on scores computes `sevMax` on severities. -/
theorem sevScore_max (a b : Aiid.Severity) :
    Nat.max (Aiid.sevScore a) (Aiid.sevScore b) = Aiid.sevScore (Aiid.sevMax a b) := by
  cases a <;> cases b <;> rfl

/-- `low` is neutral for `sevMax`. -/
theorem sevMax_low (r : Aiid.Severity) : Aiid.sevMax .low r = r := by
  cases r <;> rfl

/-- The score-fold of `calculateOverallRisk` computes the severity fold. -/
theorem scoreToSev_foldl (rs : List Aiid.Severity) :
    ∀ acc : Aiid.Severity,
      Aiid.scoreToSev ((rs.map Aiid.sevScore).foldl Nat.max (Aiid.sevScore acc)) =
        rs.foldl Aiid.sevMax acc := by
  induction rs with
  | nil => intro acc; exact scoreToSev_sevScore acc
  | cons r rest ih =>
    intro acc
    simp only [List.map_cons, List.foldl_cons]
    rw [sevScore_max]
    exact ih (Aiid.sevMax acc r)

/-- `calculateOverallRisk` returns the highest severity of the given
patterns (`low` when there are none). -/
theorem calculateOverallRisk_eq_highest (ps : List Aiid.SafetyPattern) :
    Aiid.calculateOverallRisk ps =
      Aiid.highestSeverity (ps.map (·.risk_level)) := by
  cases ps with
  | nil => rfl
  | cons p rest =>
    unfold Aiid.calculateOverallRisk Aiid.highestSeverity
    rw [if_neg (by simp)]
    simp only [List.map_cons, List.foldl_cons, List.map_map]
    rw [sevMax_low]
    have h0 : Nat.max 0 (Aiid.sevScore p.risk_level) = Aiid.sevScore p.risk_level := by
      cases p.risk_level <;> rfl
    rw [h0]
    have := scoreToSev_foldl (rest.map (·.risk_level)) p.risk_level
    simpa [List.map_map] using this

/-- C1: `analyzeQuerySafety` flags exactly those loaded patterns with some
detection keyword occurring case-insensitively as a substring of the query
concatenated with the context (the code joins them with a single space),
and its risk level is the highest severity among the flagged patterns,
`low` when none is flagged — plain keyword/substring matching. -/
theorem c1_query_safety (patterns : List Aiid.SafetyPattern) (q : Str)
    (ctx : Option Str) :
    (Aiid.analyzeQuerySafety patterns q ctx).detectedPatterns =
      patterns.filter (Aiid.flaggedSpec q ctx) ∧
    (Aiid.analyzeQuerySafety patterns q ctx).riskLevel =
      Aiid.highestSeverity
        ((patterns.filter (Aiid.flaggedSpec q ctx)).map (·.risk_level)) := by
  have hfst : (Aiid.analyzeLoop (lowerStr (q ++ ' ' :: ctx.getD [])) patterns).1 =
      patterns.filter (Aiid.flaggedSpec q ctx) := by
    rw [analyzeLoop_fst]
    rfl
  constructor
  · exact hfst
  · show Aiid.calculateOverallRisk
      (Aiid.analyzeLoop (lowerStr (q ++ ' ' :: ctx.getD [])) patterns).1 = _
    rw [hfst, calculateOverallRisk_eq_highest]


/-- The retry loop sleeps the fixed backoff schedule: starting at attempt
`i` with `rem` iterations left, the delays slept are a prefix of
`1000·(i+1), 1000·(i+2), …` of length at most `rem`. -/
theorem searchPapersGo_delays (att : Nat → FetchOutcome (List Algo.Paper)) (rem : Nat) :
    ∀ i, ∃ k, k ≤ rem ∧
      (Algo.searchPapersGo att rem i).2 = (List.range' (i + 1) k).map fun j => 1000 * j := by
  induction rem with
  | zero => intro i; exact ⟨0, Nat.le_refl _, rfl⟩
  | succ rem ih =>
    intro i
    cases h : att i with
    | ok d => exact ⟨0, Nat.zero_le _, by simp [Algo.searchPapersGo, h]⟩
    | httpErr s =>
      by_cases h429 : s = 429
      · obtain ⟨k, hk, hd⟩ := ih (i + 1)
        refine ⟨k + 1, by omega, ?_⟩
        simp only [Algo.searchPapersGo, h, if_pos h429]
        rw [hd, List.range'_succ, List.map_cons]
      · by_cases hlast : i = Algo.maxRetries - 1
        · refine ⟨0, Nat.zero_le _, ?_⟩
          simp only [Algo.searchPapersGo, h, if_neg h429, if_pos hlast]
          rfl
        · obtain ⟨k, hk, hd⟩ := ih (i + 1)
          refine ⟨k + 1, by omega, ?_⟩
          simp only [Algo.searchPapersGo, h, if_neg h429, if_neg hlast]
          rw [hd, List.range'_succ, List.map_cons]
    | exn m =>
      by_cases hlast : i = Algo.maxRetries - 1
      · refine ⟨0, Nat.zero_le _, ?_⟩
        simp only [Algo.searchPapersGo, h, if_pos hlast]
        rfl
      · obtain ⟨k, hk, hd⟩ := ih (i + 1)
        refine ⟨k + 1, by omega, ?_⟩
        simp only [Algo.searchPapersGo, h, if_neg hlast]
        rw [hd, List.range'_succ, List.map_cons]

/-- When the retry loop fails, its error is the error of one of the
attempted fetches: a thrown error, or `API error: s` for a non-429
status. -/
theorem searchPapersGo_error (att : Nat → FetchOutcome (List Algo.Paper)) (rem : Nat) :
    ∀ i e, (Algo.searchPapersGo att rem i).1 = .error e →
      ∃ j, i ≤ j ∧ j < i + rem ∧
        (att j = .exn e ∨
          ∃ s, s ≠ 429 ∧ att j = .httpErr s ∧ e = "API error: " ++ toString s) := by
  induction rem with
  | zero => intro i e he; exact absurd he (by simp [Algo.searchPapersGo])
  | succ rem ih =>
    intro i e he
    cases h : att i with
    | ok d =>
      simp only [Algo.searchPapersGo, h] at he
      exact absurd he (by simp)
    | httpErr s =>
      by_cases h429 : s = 429
      · simp only [Algo.searchPapersGo, h, if_pos h429] at he
        obtain ⟨j, hj1, hj2, hj3⟩ := ih (i + 1) e he
        exact ⟨j, by omega, by omega, hj3⟩
      · by_cases hlast : i = Algo.maxRetries - 1
        · simp only [Algo.searchPapersGo, h, if_neg h429, if_pos hlast,
            Except.error.injEq] at he
          exact ⟨i, Nat.le_refl _, by omega, Or.inr ⟨s, h429, h, he.symm⟩⟩
        · simp only [Algo.searchPapersGo, h, if_neg h429, if_neg hlast] at he
          obtain ⟨j, hj1, hj2, hj3⟩ := ih (i + 1) e he
          exact ⟨j, by omega, by omega, hj3⟩
    | exn m =>
      by_cases hlast : i = Algo.maxRetries - 1
      · simp only [Algo.searchPapersGo, h, if_pos hlast, Except.error.injEq] at he
        exact ⟨i, Nat.le_refl _, by omega, Or.inl (he ▸ h)⟩
      · simp only [Algo.searchPapersGo, h, if_neg hlast] at he
        obtain ⟨j, hj1, hj2, hj3⟩ := ih (i + 1) e he
        exact ⟨j, by omega, by omega, hj3⟩

/-- C2: a failing Court Listener or Google Scholar call in the legal route
is logged and contributes no results while the request proceeds (a Google
Scholar failure leaves the combined result exactly the Court Listener
contributions); the paper route's `searchPapers` is the fixed-count backoff
retry loop — at most `maxRetries` sleeps following the `1000·(i+1)`
schedule — and when it fails its error is one of the attempts' errors,
which the route's catch reports to the client as an `error` event. -/
theorem c2_failure_handling :
    (∀ (hasKey : Bool) (oc : FetchOutcome (List Legal.LegalCase)) (lim : Nat),
      oc.isFail = true →
      (Legal.searchLegalCases hasKey oc lim).1 = [] ∧
      (Legal.searchLegalCases hasKey oc lim).2 ≠ []) ∧
    (∀ (oc : FetchOutcome (List Legal.LegalCase)) (lim : Nat),
      oc.isFail = true →
      (Legal.searchGoogleScholarLegal oc lim).1 = [] ∧
      (Legal.searchGoogleScholarLegal oc lim).2 ≠ []) ∧
    (∀ (q : Str) (analysis : Legal.QueryAnalysis) (hasKey : Bool)
        (clOut : Nat → FetchOutcome (List Legal.LegalCase))
        (gsOut : FetchOutcome (List Legal.LegalCase)),
      gsOut.isFail = true →
      (Legal.multiSearch q analysis hasKey clOut gsOut).1 =
        ((List.range (Legal.buildSearchQueries q analysis.searchVariations).length).map
          fun i => (Legal.searchLegalCases hasKey (clOut i)
            ((analysis.caseCount +
                (Legal.buildSearchQueries q analysis.searchVariations).length - 1) /
              (Legal.buildSearchQueries q analysis.searchVariations).length)).1).flatten) ∧
    (∀ att : Nat → FetchOutcome (List Algo.Paper), ∃ k, k ≤ Algo.maxRetries ∧
      (Algo.searchPapers att).2 = (List.range' 1 k).map fun j => 1000 * j) ∧
    (∀ (att : Nat → FetchOutcome (List Algo.Paper)) (e : String),
      (Algo.searchPapers att).1 = .error e →
      ∃ j, j < Algo.maxRetries ∧
        (att j = .exn e ∨
          ∃ s, s ≠ 429 ∧ att j = .httpErr s ∧ e = "API error: " ++ toString s)) ∧
    (∀ (q : Str) (e : String) (score : Algo.Paper → ℚ) (chunks : List Str),
      Algo.paperPOST q (.error e) score chunks = [Ev.status 1, Ev.errorEv e.data]) := by
  refine ⟨?_, ?_, ?_, ?_, ?_, ?_⟩
  · intro hasKey oc lim hf
    cases oc with
    | ok d => simp [FetchOutcome.isFail] at hf
    | httpErr s => cases hasKey <;> simp [Legal.searchLegalCases]
    | exn m => cases hasKey <;> simp [Legal.searchLegalCases]
  · intro oc lim hf
    cases oc with
    | ok d => simp [FetchOutcome.isFail] at hf
    | httpErr s => simp [Legal.searchGoogleScholarLegal]
    | exn m => simp [Legal.searchGoogleScholarLegal]
  · intro q analysis hasKey clOut gsOut hgs
    have hgse : (Legal.searchGoogleScholarLegal gsOut (min 10 analysis.caseCount)).1 = [] := by
      cases gsOut with
      | ok d => simp [FetchOutcome.isFail] at hgs
      | httpErr s => simp [Legal.searchGoogleScholarLegal]
      | exn m => simp [Legal.searchGoogleScholarLegal]
    simp [Legal.multiSearch, hgse]
  · intro att
    exact searchPapersGo_delays att Algo.maxRetries 0
  · intro att e he
    obtain ⟨j, hj1, hj2, hj3⟩ := searchPapersGo_error att Algo.maxRetries 0 e he
    exact ⟨j, by omega, hj3⟩
  · intro q e score chunks
    rfl

/-- Witness for `c2_failure_handling` at concrete inputs: a thrown Court
Listener error yields no cases and a nonempty log, and an always-throwing
paper search fails with the attempt's own error. -/
theorem c2_failure_handling_witness :
    ((Legal.searchLegalCases true (.exn "boom") 5).1 = [] ∧
      (Legal.searchLegalCases true (.exn "boom") 5).2 ≠ []) ∧
    (∃ j, j < Algo.maxRetries ∧
      ((fun _ => (FetchOutcome.exn "boom" : FetchOutcome (List Algo.Paper))) j =
          .exn "boom" ∨
        ∃ s, s ≠ 429 ∧
          (fun _ => (FetchOutcome.exn "boom" : FetchOutcome (List Algo.Paper))) j =
            .httpErr s ∧ "boom" = "API error: " ++ toString s)) :=
  ⟨c2_failure_handling.1 true (.exn "boom") 5 (by decide),
    c2_failure_handling.2.2.2.2.1 (fun _ => .exn "boom") "boom" rfl⟩


/-- `Promise.all` with only fulfilled promises collects their values in
order. -/
theorem promiseAll_all_ok {ε α : Type} :
    ∀ rs : List (Except ε α), (∀ r ∈ rs, ∃ a, r = .ok a) →
      ∃ ds, promiseAll rs = .ok ds ∧ rs = ds.map Except.ok := by
  intro rs
  induction rs with
  | nil => intro _; exact ⟨[], rfl, rfl⟩
  | cons r rest ih =>
    intro h
    obtain ⟨a, ha⟩ := h r (List.mem_cons_self _ _)
    subst ha
    obtain ⟨ds, h1, h2⟩ := ih fun r hr => h r (List.mem_cons_of_mem _ hr)
    exact ⟨a :: ds, by simp [promiseAll, h1, Except.map], by simp [h2]⟩

/-- When `Promise.all` rejects, its rejection is one of the promises'. -/
theorem promiseAll_error_mem {ε α : Type} :
    ∀ (rs : List (Except ε α)) (e : ε), promiseAll rs = .error e → .error e ∈ rs := by
  intro rs
  induction rs with
  | nil => intro e he; exact absurd he (by simp [promiseAll])
  | cons r rest ih =>
    intro e he
    cases r with
    | ok a =>
      rw [promiseAll] at he
      cases hp : promiseAll rest with
      | ok ds => rw [hp] at he; exact absurd he (by simp [Except.map])
      | error e' =>
        rw [hp] at he
        simp only [Except.map, Except.error.injEq] at he
        subst he
        exact List.mem_cons_of_mem _ (ih e' hp)
    | error e' =>
      rw [promiseAll] at he
      simp only [Except.error.injEq] at he
      subst he
      exact List.mem_cons_self _ _

/-- When some promise rejects, `Promise.all` rejects. -/
theorem promiseAll_error_of_mem {ε α : Type} :
    ∀ rs : List (Except ε α), (∃ e, .error e ∈ rs) → ∃ e', promiseAll rs = .error e' := by
  intro rs
  induction rs with
  | nil => intro ⟨e, he⟩; exact absurd he (by simp)
  | cons r rest ih =>
    intro ⟨e, he⟩
    cases r with
    | ok a =>
      have hmem : Except.error e ∈ rest := by
        rcases List.mem_cons.mp he with h | h
        · exact absurd h (by simp)
        · exact h
      obtain ⟨e', he'⟩ := ih ⟨e, hmem⟩
      exact ⟨e', by simp [promiseAll, he', Except.map]⟩
    | error e0 => exact ⟨e0, rfl⟩

/-- C6 (amended): the paper route's `multiSearch` is exactly as claimed —
one search per built query variation under `Promise.all`; either every
search completes and the result is the in-order concatenation of their
result lists, or the aggregate fails with the error of one of the failed
searches and yields no partial list.  The legal route's `multiSearch`
additionally performs one Google Scholar search beyond the one search per
variation and appends its results, and (both its sources swallowing their
failures) always completes with that concatenation. -/
theorem c6_multisearch_aggregate :
    (∀ (q : Str) (analysis : Algo.QueryAnalysis)
        (f : Nat → Except String (List Algo.Paper)),
      ((∀ i, i < (Algo.buildSearchQueries q analysis.searchVariations).length →
          ∃ d, f i = .ok d) →
        ∃ dss : List (List Algo.Paper),
          Algo.multiSearch q analysis f = .ok dss.flatten ∧
          (List.range (Algo.buildSearchQueries q analysis.searchVariations).length).map f =
            dss.map Except.ok) ∧
      ((∃ i, i < (Algo.buildSearchQueries q analysis.searchVariations).length ∧
          ∃ e, f i = .error e) →
        ∃ e', Algo.multiSearch q analysis f = .error e' ∧
          ∃ i, i < (Algo.buildSearchQueries q analysis.searchVariations).length ∧
            f i = .error e')) ∧
    (∀ (q : Str) (analysis : Legal.QueryAnalysis) (hasKey : Bool)
        (clOut : Nat → FetchOutcome (List Legal.LegalCase))
        (gsOut : FetchOutcome (List Legal.LegalCase)),
      (Legal.multiSearch q analysis hasKey clOut gsOut).2 =
        (Legal.buildSearchQueries q analysis.searchVariations).length + 1 ∧
      (Legal.multiSearch q analysis hasKey clOut gsOut).1 =
        ((List.range (Legal.buildSearchQueries q analysis.searchVariations).length).map
          fun i => (Legal.searchLegalCases hasKey (clOut i)
            ((analysis.caseCount +
                (Legal.buildSearchQueries q analysis.searchVariations).length - 1) /
              (Legal.buildSearchQueries q analysis.searchVariations).length)).1).flatten ++
          (Legal.searchGoogleScholarLegal gsOut (min 10 analysis.caseCount)).1) := by
  constructor
  · intro q analysis f
    constructor
    · intro hok
      obtain ⟨dss, hpa, heq⟩ := promiseAll_all_ok
        ((List.range (Algo.buildSearchQueries q analysis.searchVariations).length).map f)
        (by
          intro r hr
          obtain ⟨i, hi, rfl⟩ := List.mem_map.mp hr
          exact hok i (List.mem_range.mp hi))
      exact ⟨dss, by simp [Algo.multiSearch, hpa, Except.map], heq⟩
    · intro ⟨i, hi, e, hf⟩
      have hmem : Except.error e ∈
          (List.range (Algo.buildSearchQueries q analysis.searchVariations).length).map f :=
        List.mem_map.mpr ⟨i, List.mem_range.mpr hi, hf⟩
      obtain ⟨e', hpa⟩ := promiseAll_error_of_mem _ ⟨e, hmem⟩
      refine ⟨e', by simp [Algo.multiSearch, hpa, Except.map], ?_⟩
      obtain ⟨i', hi', hfi⟩ := List.mem_map.mp (promiseAll_error_mem _ _ hpa)
      exact ⟨i', List.mem_range.mp hi', hfi⟩
  · intro q analysis hasKey clOut gsOut
    exact ⟨rfl, rfl⟩

/-- C6: counterexample.  For the one-variation query `"law"`, the legal
route's `multiSearch` performs two external searches, not one per built
variation, and when Court Listener returns nothing while Google Scholar
returns one case, its result is that case — not the concatenation of the
per-variation fan-out results, which is empty. -/
theorem c6_counterexample :
    (Legal.buildSearchQueries "law".data 1).length = 1 ∧
    (Legal.multiSearch "law".data ⟨10, 1⟩ true (fun _ => .ok [])
      (.ok [⟨"g", "G".data, none, none, some 2020, none, none, none, none⟩])).2 = 2 ∧
    (Legal.multiSearch "law".data ⟨10, 1⟩ true (fun _ => .ok [])
      (.ok [⟨"g", "G".data, none, none, some 2020, none, none, none, none⟩])).1 =
      [⟨"g", "G".data, none, none, some 2020, none, none, none, none⟩] ∧
    (Legal.multiSearch "law".data ⟨10, 1⟩ true (fun _ => .ok [])
      (.ok [⟨"g", "G".data, none, none, some 2020, none, none, none, none⟩])).1 ≠
      ((List.range (Legal.buildSearchQueries "law".data 1).length).map
        fun i => (Legal.searchLegalCases true
          ((fun _ => FetchOutcome.ok ([] : List Legal.LegalCase)) i) 10).1).flatten := by
  exact ⟨by decide, by decide, by decide, by decide⟩

/-- Witness for `c6_multisearch_aggregate`: with every variation's search
fulfilled (with no papers), the paper aggregate completes with the
concatenation. -/
theorem c6_multisearch_aggregate_witness :
    ∃ dss : List (List Algo.Paper),
      Algo.multiSearch "law".data ⟨20, 1⟩ (fun _ => Except.ok []) = .ok dss.flatten ∧
      (List.range (Algo.buildSearchQueries "law".data
          (Algo.QueryAnalysis.mk 20 1).searchVariations).length).map
        (fun _ => (Except.ok [] : Except String (List Algo.Paper))) = dss.map Except.ok :=
  (c6_multisearch_aggregate.1 "law".data ⟨20, 1⟩ (fun _ => Except.ok [])).1
    fun _ _ => ⟨[], rfl⟩


/-- The seen-set dedup keeps a sublist of the input (order preserved,
nothing invented). -/
theorem dedupByGo_sublist {α β : Type} [DecidableEq β] (key : α → β) :
    ∀ (seen : List β) (l : List α), List.Sublist (dedupByGo key seen l) l := by
  intro seen l
  induction l generalizing seen with
  | nil => exact List.Sublist.refl _
  | cons a rest ih =>
    simp only [dedupByGo]
    split
    · exact (ih seen).cons a
    · exact (ih (key a :: seen)).cons₂ a

/-- The kept elements have pairwise distinct keys, none of which was
already seen. -/
theorem dedupByGo_keys {α β : Type} [DecidableEq β] (key : α → β) :
    ∀ (l : List α) (seen : List β),
      ((dedupByGo key seen l).map key).Nodup ∧
      ∀ a ∈ dedupByGo key seen l, key a ∉ seen := by
  intro l
  induction l with
  | nil => intro seen; exact ⟨List.nodup_nil, by simp [dedupByGo]⟩
  | cons a rest ih =>
    intro seen
    simp only [dedupByGo]
    split <;> rename_i hmem
    · obtain ⟨h1, h2⟩ := ih seen
      exact ⟨h1, h2⟩
    · obtain ⟨h1, h2⟩ := ih (key a :: seen)
      refine ⟨?_, ?_⟩
      · simp only [List.map_cons, List.nodup_cons]
        constructor
        · intro hka
          obtain ⟨b, hb, hkb⟩ := List.mem_map.mp hka
          exact (h2 b hb) (hkb ▸ List.mem_cons_self _ _)
        · exact h1
      · intro b hb
        rcases List.mem_cons.mp hb with rfl | hb
        · exact hmem
        · intro hbs
          exact (h2 b hb) (List.mem_cons_of_mem _ hbs)

/-- Every input element's key survives: it was already seen, or some kept
element carries it. -/
theorem dedupByGo_covers {α β : Type} [DecidableEq β] (key : α → β) :
    ∀ (l : List α) (seen : List β) (a : α), a ∈ l →
      key a ∈ seen ∨ ∃ b ∈ dedupByGo key seen l, key b = key a := by
  intro l
  induction l with
  | nil => intro seen a ha; exact absurd ha (by simp)
  | cons x rest ih =>
    intro seen a ha
    simp only [dedupByGo]
    split <;> rename_i hmem
    · rcases List.mem_cons.mp ha with rfl | ha
      · exact Or.inl hmem
      · exact ih seen a ha
    · rcases List.mem_cons.mp ha with rfl | ha
      · exact Or.inr ⟨a, List.mem_cons_self _ _, rfl⟩
      · rcases ih (key x :: seen) a ha with hs | ⟨b, hb, hkb⟩
        · rcases List.mem_cons.mp hs with hxa | hs
          · exact Or.inr ⟨x, List.mem_cons_self _ _, hxa.symm⟩
          · exact Or.inl hs
        · exact Or.inr ⟨b, List.mem_cons_of_mem _ hb, hkb⟩

/-- Every kept element is the first element of the input with its key. -/
theorem dedupByGo_first {α β : Type} [DecidableEq β] (key : α → β) :
    ∀ (l : List α) (seen : List β) (b : α), b ∈ dedupByGo key seen l →
      l.find? (fun x => key x == key b) = some b := by
  intro l
  induction l with
  | nil => intro seen b hb; exact absurd hb (by simp [dedupByGo])
  | cons x rest ih =>
    intro seen b hb
    simp only [dedupByGo] at hb
    rw [List.find?]
    split at hb <;> rename_i hmem
    · have hne : key b ∉ seen := ((dedupByGo_keys key rest seen).2 b hb)
      have hxb : (key x == key b) = false := by
        by_contra hx
        have : key x = key b := by
          have := Bool.not_eq_false (key x == key b) ▸ hx
          exact eq_of_beq (Bool.of_not_eq_false hx)
        exact hne (this ▸ hmem)
      rw [hxb]
      exact ih seen b hb
    · rcases List.mem_cons.mp hb with rfl | hb
      · have : (key b == key b) = true := beq_self_eq_true _
        rw [this]
      · have hne : key b ∉ key x :: seen := ((dedupByGo_keys key rest (key x :: seen)).2 b hb)
        have hxb : (key x == key b) = false := by
          by_contra hx
          have : key x = key b := eq_of_beq (Bool.of_not_eq_false hx)
          exact hne (this ▸ List.mem_cons_self _ _)
        rw [hxb]
        exact ih (key x :: seen) b hb

/-- The legal route's indexed citation map assigns key `C(i+k+1)` at
position `k` when started at index `i`. -/
theorem legal_prepareCitationsGo_key :
    ∀ (cases : List Legal.LegalCase) (i k : Nat)
      (h : k < (Legal.prepareCitationsGo i cases).length),
      ((Legal.prepareCitationsGo i cases).get ⟨k, h⟩).key = "C" ++ toString (i + k + 1) := by
  intro cases
  induction cases with
  | nil => intro i k h; exact absurd h (by simp [Legal.prepareCitationsGo])
  | cons c rest ih =>
    intro i k h
    cases k with
    | zero => rfl
    | succ k =>
      have := ih (i + 1) k (by
        simp only [Legal.prepareCitationsGo, List.length_cons] at h
        omega)
      simp only [Legal.prepareCitationsGo, List.get_cons_succ]
      rw [this]
      congr 2
      omega

/-- The paper route's indexed citation map assigns key `C(i+k+1)` at
position `k` when started at index `i`. -/
theorem algo_prepareCitationsGo_key :
    ∀ (papers : List Algo.Paper) (i k : Nat)
      (h : k < (Algo.prepareCitationsGo i papers).length),
      ((Algo.prepareCitationsGo i papers).get ⟨k, h⟩).key = "C" ++ toString (i + k + 1) := by
  intro papers
  induction papers with
  | nil => intro i k h; exact absurd h (by simp [Algo.prepareCitationsGo])
  | cons p rest ih =>
    intro i k h
    cases k with
    | zero => rfl
    | succ k =>
      have := ih (i + 1) k (by
        simp only [Algo.prepareCitationsGo, List.length_cons] at h
        omega)
      simp only [Algo.prepareCitationsGo, List.get_cons_succ]
      rw [this]
      congr 2
      omega

/-- C5: in both routes, `selectOptimal` is the advertised composition —
first remove duplicate ids keeping first occurrences (the deduped list is a
sublist of the input with pairwise-distinct ids, covering every input id,
each kept element being the first with its id), then score every remaining
item, then apply the diversity selection to the scored list (with the
route's cap on the target) — and `prepareCitations` assigns the keys `C1`,
`C2`, … to the selected items in selection order. -/
theorem c5_pipeline (score : Legal.LegalCase → ℚ) (cases : List Legal.LegalCase)
    (target : Nat) (scoreP : Algo.Paper → ℚ) (papers : List Algo.Paper)
    (targetP : Nat) :
    Legal.selectOptimal score cases target =
      Legal.selectDiverse ((Legal.dedupe cases).map fun c => ⟨c, score c⟩)
        (min target 20) ∧
    List.Sublist (Legal.dedupe cases) cases ∧
    ((Legal.dedupe cases).map (·.caseId)).Nodup ∧
    (∀ c ∈ cases, ∃ c', c' ∈ Legal.dedupe cases ∧ c'.caseId = c.caseId) ∧
    (∀ c' ∈ Legal.dedupe cases,
      cases.find? (fun x => x.caseId == c'.caseId) = some c') ∧
    (∀ k (h : k < (Legal.prepareCitations cases).length),
      ((Legal.prepareCitations cases).get ⟨k, h⟩).key = "C" ++ toString (k + 1)) ∧
    Algo.selectOptimal scoreP papers targetP =
      Algo.selectDiverse ((Algo.dedupe papers).map fun p => ⟨p, scoreP p⟩)
        (min targetP 25) ∧
    List.Sublist (Algo.dedupe papers) papers ∧
    ((Algo.dedupe papers).map (·.paperId)).Nodup ∧
    (∀ p ∈ papers, ∃ p', p' ∈ Algo.dedupe papers ∧ p'.paperId = p.paperId) ∧
    (∀ p' ∈ Algo.dedupe papers,
      papers.find? (fun x => x.paperId == p'.paperId) = some p') ∧
    (∀ k (h : k < (Algo.prepareCitations papers).length),
      ((Algo.prepareCitations papers).get ⟨k, h⟩).key = "C" ++ toString (k + 1)) := by
  refine ⟨rfl, dedupByGo_sublist _ _ _, (dedupByGo_keys _ _ _).1, ?_, ?_, ?_,
    rfl, dedupByGo_sublist _ _ _, (dedupByGo_keys _ _ _).1, ?_, ?_, ?_⟩
  · intro c hc
    rcases dedupByGo_covers (fun c : Legal.LegalCase => c.caseId) cases [] c hc with hs | ⟨b, hb, hkb⟩
    · exact absurd hs (by simp)
    · exact ⟨b, hb, hkb⟩
  · intro c' hc'
    exact dedupByGo_first _ cases [] c' hc'
  · intro k h
    have := legal_prepareCitationsGo_key cases 0 k h
    simpa using this
  · intro p hp
    rcases dedupByGo_covers (fun p : Algo.Paper => p.paperId) papers [] p hp with hs | ⟨b, hb, hkb⟩
    · exact absurd hs (by simp)
    · exact ⟨b, hb, hkb⟩
  · intro p' hp'
    exact dedupByGo_first _ papers [] p' hp'
  · intro k h
    have := algo_prepareCitationsGo_key papers 0 k h
    simpa using this

/-- Witness for `c5_pipeline`: on a concrete list with a duplicated id,
the deduped list covers the duplicate's id, and the citation token at
position 1 has key `C2`. -/
theorem c5_pipeline_witness :
    (∃ c', c' ∈ Legal.dedupe
        [⟨"a", "A".data, none, none, some 2020, none, none, none, none⟩,
          ⟨"a", "A2".data, none, none, some 2021, none, none, none, none⟩,
          ⟨"b", "B".data, none, none, some 2022, none, none, none, none⟩] ∧
      c'.caseId = Legal.LegalCase.caseId
        ⟨"a", "A2".data, none, none, some 2021, none, none, none, none⟩) ∧
    ((Legal.prepareCitations
        [⟨"a", "A".data, none, none, some 2020, none, none, none, none⟩,
          ⟨"a", "A2".data, none, none, some 2021, none, none, none, none⟩,
          ⟨"b", "B".data, none, none, some 2022, none, none, none, none⟩]).get
      ⟨1, by decide⟩).key = "C" ++ toString (1 + 1) := by
  have h := c5_pipeline (fun _ => 0)
    [⟨"a", "A".data, none, none, some 2020, none, none, none, none⟩,
      ⟨"a", "A2".data, none, none, some 2021, none, none, none, none⟩,
      ⟨"b", "B".data, none, none, some 2022, none, none, none, none⟩] 5
    (fun _ => 0) [] 5
  exact ⟨h.2.2.2.1 ⟨"a", "A2".data, none, none, some 2021, none, none, none, none⟩
      (by decide),
    h.2.2.2.2.2.1 1 (by decide)⟩


/-! ### C9: citation renumbering (`deduplicateCitations`) -/

theorem digitChar_isDigit (k : Nat) : isDigitB (digitChar k) = true := by
  unfold digitChar
  split <;> rfl

theorem digitChar_toNat (k : Nat) (h : k < 10) : (digitChar k).toNat = 48 + k := by
  interval_cases k <;> rfl

theorem natDigitsGo_irrel (f₁ : Nat) :
    ∀ f₂ n, n ≤ f₁ → n ≤ f₂ → natDigitsGo f₁ n = natDigitsGo f₂ n := by
  induction f₁ with
  | zero =>
    intro f₂ n h1 h2
    interval_cases n
    cases f₂ <;> rfl
  | succ f₁ ih =>
    intro f₂ n h1 h2
    by_cases hn : n < 10
    · cases f₂ with
      | zero =>
        interval_cases n <;> rfl
      | succ f₂ => simp [natDigitsGo, hn]
    · cases f₂ with
      | zero => omega
      | succ f₂ =>
        simp only [natDigitsGo, hn, if_false, ite_false]
        have hd : n / 10 ≤ f₁ := by
          have := Nat.div_lt_self (by omega : 0 < n) (by omega : 1 < 10)
          omega
        have hd2 : n / 10 ≤ f₂ := by
          have := Nat.div_lt_self (by omega : 0 < n) (by omega : 1 < 10)
          omega
        rw [ih f₂ (n / 10) hd hd2]

theorem natDigits_unfold (n : Nat) :
    natDigits n =
      if n < 10 then [digitChar n]
      else natDigits (n / 10) ++ [digitChar (n % 10)] := by
  unfold natDigits
  by_cases hn : n < 10
  · cases n with
    | zero => simp [natDigitsGo, hn]
    | succ m => simp [natDigitsGo, hn]
  · have h0 : 0 < n := by omega
    cases n with
    | zero => omega
    | succ m =>
      simp only [natDigitsGo, hn, if_false, ite_false, natDigits]
      congr 1
      exact natDigitsGo_irrel m ((m + 1) / 10) ((m + 1) / 10)
        (by have := Nat.div_lt_self (by omega : 0 < m + 1) (by omega : 1 < 10); omega)
        (Nat.le_refl _)

theorem natDigits_ne_nil (n : Nat) : natDigits n ≠ [] := by
  rw [natDigits_unfold]
  split
  · simp
  · simp

theorem natDigits_digits (n : Nat) : ∀ c ∈ natDigits n, isDigitB c = true := by
  induction n using Nat.strong_induction_on with
  | _ n ih =>
    rw [natDigits_unfold]
    split <;> rename_i hn
    · intro c hc
      simp only [List.mem_singleton] at hc
      subst hc
      exact digitChar_isDigit n
    · intro c hc
      rcases List.mem_append.mp hc with hc | hc
      · exact ih (n / 10) (Nat.div_lt_self (by omega) (by omega)) c hc
      · simp only [List.mem_singleton] at hc
        subst hc
        exact digitChar_isDigit (n % 10)

theorem digitsVal_append (l : List Char) (c : Char) :
    digitsVal (l ++ [c]) = 10 * digitsVal l + (c.toNat - 48) := by
  unfold digitsVal
  rw [List.foldl_append]
  rfl

theorem digitsVal_natDigits (n : Nat) : digitsVal (natDigits n) = n := by
  induction n using Nat.strong_induction_on with
  | _ n ih =>
    rw [natDigits_unfold]
    split <;> rename_i hn
    · show digitsVal [digitChar n] = n
      unfold digitsVal
      simp [digitChar_toNat n hn]
    · rw [digitsVal_append, ih (n / 10) (Nat.div_lt_self (by omega) (by omega)),
        digitChar_toNat (n % 10) (Nat.mod_lt _ (by omega))]
      omega

theorem natDigits_inj {a b : Nat} (h : natDigits a = natDigits b) : a = b := by
  have := digitsVal_natDigits a
  rw [h, digitsVal_natDigits] at this
  omega

theorem takeWhile_digits_append (d : List Char) :
    ∀ r : List Char, (∀ c ∈ d, isDigitB c = true) →
      (match r.head? with | some c => isDigitB c = false | none => True) →
      (d ++ r).takeWhile isDigitB = d ∧ (d ++ r).dropWhile isDigitB = r := by
  induction d with
  | nil =>
    intro r _ hr
    cases r with
    | nil => exact ⟨rfl, rfl⟩
    | cons c rest =>
      simp only [List.head?] at hr
      constructor
      · simp [List.takeWhile, hr]
      · simp [List.dropWhile, hr]
  | cons a d ih =>
    intro r hd hr
    have ha : isDigitB a = true := hd a (List.mem_cons_self _ _)
    obtain ⟨h1, h2⟩ := ih r (fun c hc => hd c (List.mem_cons_of_mem _ hc)) hr
    constructor
    · simp only [List.cons_append, List.takeWhile, ha, List.append_eq, h1]
    · simp only [List.cons_append, List.dropWhile, ha, List.append_eq, h2]

theorem matchTok_digits {ds : List Char} (hne : ds ≠ [])
    (hd : ∀ c ∈ ds, isDigitB c = true) (r : List Char) :
    matchTok ('[' :: '[' :: 'C' :: (ds ++ ']' :: ']' :: r)) = some (ds, r) := by
  have hsplit := takeWhile_digits_append ds (']' :: ']' :: r)
    hd (by simp [List.head?]; rfl)
  unfold matchTok
  rw [if_pos]
  · simp only [List.drop, takeDigits, hsplit.1, hsplit.2]
  · refine ⟨rfl, ?_, ?_⟩
    · simp only [List.drop, takeDigits, hsplit.1]
      exact hne
    · simp only [List.drop, takeDigits, hsplit.2]
      rfl

theorem matchTok_canonical (n : Nat) (r : List Char) :
    matchTok ('[' :: '[' :: 'C' :: (natDigits n ++ ']' :: ']' :: r)) =
      some (natDigits n, r) :=
  matchTok_digits (natDigits_ne_nil n) (natDigits_digits n) r

theorem matchTok_some_shape {l ds rest : List Char}
    (h : matchTok l = some (ds, rest)) :
    l = '[' :: '[' :: 'C' :: (ds ++ ']' :: ']' :: rest) ∧ ds ≠ [] ∧
      (∀ c ∈ ds, isDigitB c = true) := by
  unfold matchTok at h
  split at h <;> rename_i hc
  · obtain ⟨h1, h2, h3⟩ := hc
    simp only [Option.some.injEq, Prod.mk.injEq] at h
    obtain ⟨hds, hrest⟩ := h
    have hlen : 3 ≤ l.length := by
      have := congrArg List.length h1
      simp [List.length_take] at this
      omega
    have hl : l = l.take 3 ++ l.drop 3 := (List.take_append_drop 3 l).symm
    have hdw : l.drop 3 = ds ++ (']' :: ']' :: rest) := by
      have hsplit : l.drop 3 = (l.drop 3).takeWhile isDigitB ++ (l.drop 3).dropWhile isDigitB :=
        (List.takeWhile_append_dropWhile isDigitB (l.drop 3)).symm
      have htw : (l.drop 3).takeWhile isDigitB = ds := hds ▸ rfl
      have hd2 : (l.drop 3).dropWhile isDigitB = ']' :: ']' :: rest := by
        have hself : (l.drop 3).dropWhile isDigitB =
            ((l.drop 3).dropWhile isDigitB).take 2 ++ ((l.drop 3).dropWhile isDigitB).drop 2 :=
          (List.take_append_drop 2 _).symm
        rw [hself]
        rw [show ((l.drop 3).dropWhile isDigitB).take 2 = [']', ']'] from h3,
          show ((l.drop 3).dropWhile isDigitB).drop 2 = rest from hrest]
        rfl
      calc l.drop 3 = (l.drop 3).takeWhile isDigitB ++ (l.drop 3).dropWhile isDigitB := hsplit
        _ = ds ++ (']' :: ']' :: rest) := by rw [htw, hd2]
    refine ⟨?_, ?_, ?_⟩
    · rw [hl, h1, hdw]
      rfl
    · exact hds ▸ h2
    · intro c hcm
      rw [← hds] at hcm
      exact List.mem_takeWhile_imp hcm
  · exact absurd h (by simp)

theorem matchTok_some_length {l ds rest : List Char}
    (h : matchTok l = some (ds, rest)) : rest.length < l.length := by
  obtain ⟨hl, -, -⟩ := matchTok_some_shape h
  rw [hl]
  simp [List.length_append]
  omega

theorem ddGoF_irrel (f₁ : Nat) :
    ∀ f₂ (l : List Char) seen, l.length ≤ f₁ → l.length ≤ f₂ →
      ddGoF f₁ l seen = ddGoF f₂ l seen := by
  induction f₁ with
  | zero =>
    intro f₂ l seen h1 _
    have : l = [] := List.length_eq_zero.mp (Nat.le_zero.mp h1)
    subst this
    cases f₂ <;> rfl
  | succ f₁ ih =>
    intro f₂ l seen h1 h2
    cases l with
    | nil => cases f₂ <;> rfl
    | cons c cs =>
      cases f₂ with
      | zero => simp at h2
      | succ f₂ =>
        simp only [ddGoF]
        cases hm : matchTok (c :: cs) with
        | none =>
          simp only [List.length_cons] at h1 h2
          rw [ih f₂ cs seen (by omega) (by omega)]
        | some p =>
          obtain ⟨ds, rest⟩ := p
          have hr := matchTok_some_length hm
          simp only [List.length_cons] at h1 h2 hr
          dsimp only
          rw [ih f₂ rest (assign seen ds).2 (by omega) (by omega)]

theorem ddGo_cons (c : Char) (cs : List Char) (seen : List (List Char)) :
    ddGo (c :: cs) seen =
      match matchTok (c :: cs) with
      | some (ds, rest) =>
        '[' :: '[' :: 'C' ::
          (natDigits (assign seen ds).1 ++ ']' :: ']' :: ddGo rest (assign seen ds).2)
      | none => c :: ddGo cs seen := by
  show ddGoF (cs.length + 1) (c :: cs) seen = _
  simp only [ddGoF]
  cases hm : matchTok (c :: cs) with
  | none => rfl
  | some p =>
    obtain ⟨ds, rest⟩ := p
    have hr := matchTok_some_length hm
    simp only [List.length_cons] at hr
    dsimp only
    rw [show ddGoF cs.length rest (assign seen ds).2 = ddGo rest (assign seen ds).2 from
      ddGoF_irrel cs.length rest.length rest (assign seen ds).2 (by omega) (Nat.le_refl _)]

theorem parseCitF_irrel (f₁ : Nat) :
    ∀ f₂ (l : List Char), l.length ≤ f₁ → l.length ≤ f₂ →
      parseCitF f₁ l = parseCitF f₂ l := by
  induction f₁ with
  | zero =>
    intro f₂ l h1 _
    have : l = [] := List.length_eq_zero.mp (Nat.le_zero.mp h1)
    subst this
    cases f₂ <;> rfl
  | succ f₁ ih =>
    intro f₂ l h1 h2
    cases l with
    | nil => cases f₂ <;> rfl
    | cons c cs =>
      cases f₂ with
      | zero => simp at h2
      | succ f₂ =>
        simp only [parseCitF]
        cases hm : matchTok (c :: cs) with
        | none =>
          simp only [List.length_cons] at h1 h2
          rw [ih f₂ cs (by omega) (by omega)]
        | some p =>
          obtain ⟨ds, rest⟩ := p
          have hr := matchTok_some_length hm
          simp only [List.length_cons] at h1 h2 hr
          dsimp only
          rw [ih f₂ rest (by omega) (by omega)]

theorem parseCit_cons (c : Char) (cs : List Char) :
    parseCit (c :: cs) =
      match matchTok (c :: cs) with
      | some (ds, rest) => .tok ds :: parseCit rest
      | none => .lit c :: parseCit cs := by
  show parseCitF (cs.length + 1) (c :: cs) = _
  simp only [parseCitF]
  cases hm : matchTok (c :: cs) with
  | none => rfl
  | some p =>
    obtain ⟨ds, rest⟩ := p
    have hr := matchTok_some_length hm
    simp only [List.length_cons] at hr
    dsimp only
    rw [show parseCitF cs.length rest = parseCit rest from
      parseCitF_irrel cs.length rest.length rest (by omega) (Nat.le_refl _)]

theorem ddGo_eq_render (n : Nat) :
    ∀ t : List Char, t.length ≤ n → ∀ s,
      ddGo t s = renderSegs (renumberSegs (parseCit t) s) := by
  induction n with
  | zero =>
    intro t ht s
    have : t = [] := List.length_eq_zero.mp (Nat.le_zero.mp ht)
    subst this
    rfl
  | succ n ih =>
    intro t ht s
    cases t with
    | nil => rfl
    | cons c cs =>
      rw [ddGo_cons, parseCit_cons]
      cases hm : matchTok (c :: cs) with
      | none =>
        simp only [List.length_cons] at ht
        simp only [renumberSegs, renderSegs, ih cs (by omega) s]
      | some p =>
        obtain ⟨ds, rest⟩ := p
        have hr := matchTok_some_length hm
        simp only [List.length_cons] at ht hr
        simp only [renumberSegs, renderSegs, ih rest (by omega) (assign s ds).2]

theorem render_parse (n : Nat) :
    ∀ t : List Char, t.length ≤ n → renderSegs (parseCit t) = t := by
  induction n with
  | zero =>
    intro t ht
    have : t = [] := List.length_eq_zero.mp (Nat.le_zero.mp ht)
    subst this
    rfl
  | succ n ih =>
    intro t ht
    cases t with
    | nil => rfl
    | cons c cs =>
      rw [parseCit_cons]
      cases hm : matchTok (c :: cs) with
      | none =>
        simp only [List.length_cons] at ht
        simp only [renderSegs, ih cs (by omega)]
      | some p =>
        obtain ⟨ds, rest⟩ := p
        have hr := matchTok_some_length hm
        simp only [List.length_cons] at ht hr
        obtain ⟨hl, -, -⟩ := matchTok_some_shape hm
        simp only [renderSegs, ih rest (by omega)]
        exact hl.symm

theorem citLits_renumber (segs : List Seg) :
    ∀ s, citLits (renumberSegs segs s) = citLits segs := by
  induction segs with
  | nil => intro s; rfl
  | cons x rest ih =>
    intro s
    cases x with
    | lit c =>
      simp only [renumberSegs, citLits, List.filterMap_cons]
      exact congrArg (c :: ·) (ih s)
    | tok ds =>
      simp only [renumberSegs, citLits, List.filterMap_cons]
      exact ih (assign s ds).2

theorem findIdxKey_none_iff (s : List (List Char)) (d : List Char) :
    findIdxKey s d = none ↔ d ∉ s := by
  induction s with
  | nil => simp [findIdxKey]
  | cons k ks ih =>
    by_cases hk : k = d
    · subst hk
      simp [findIdxKey]
    · simp only [findIdxKey, if_neg hk, List.mem_cons]
      rw [Option.map_eq_none', ih]
      constructor
      · intro h hm
        rcases hm with hm | hm
        · exact hk hm.symm
        · exact h hm
      · intro h hm
        exact h (Or.inr hm)

theorem findIdxKey_append_some {s : List (List Char)} {d : List Char} {i : Nat}
    (h : findIdxKey s d = some i) (u : List (List Char)) :
    findIdxKey (s ++ u) d = some i := by
  induction s generalizing i with
  | nil => simp [findIdxKey] at h
  | cons k ks ih =>
    by_cases hk : k = d
    · subst hk
      simp only [findIdxKey, if_pos rfl] at h ⊢
      exact h
    · simp only [findIdxKey, if_neg hk, List.cons_append, List.append_eq] at h ⊢
      cases hj : findIdxKey ks d with
      | none => rw [hj] at h; simp at h
      | some j =>
        rw [hj] at h
        have hi : j + 1 = i := by simpa using h
        rw [ih hj]
        show some (j + 1) = some i
        rw [hi]

theorem findIdxKey_append_none {s : List (List Char)} {d : List Char}
    (h : findIdxKey s d = none) (u : List (List Char)) :
    findIdxKey (s ++ u) d = (findIdxKey u d).map (· + s.length) := by
  induction s with
  | nil => simp
  | cons k ks ih =>
    by_cases hk : k = d
    · subst hk
      simp [findIdxKey] at h
    · simp only [findIdxKey, if_neg hk, List.cons_append, List.append_eq] at h ⊢
      have hks : findIdxKey ks d = none := by
        cases hj : findIdxKey ks d with
        | none => rfl
        | some j => rw [hj] at h; simp at h
      rw [ih hks]
      cases findIdxKey u d with
      | none => rfl
      | some j =>
        show some (j + ks.length + 1) = some (j + (ks.length + 1))
        rfl

theorem findIdxKey_get {s : List (List Char)} {d : List Char} {i : Nat}
    (h : findIdxKey s d = some i) : ∃ hi : i < s.length, s.get ⟨i, hi⟩ = d := by
  induction s generalizing i with
  | nil => simp [findIdxKey] at h
  | cons k ks ih =>
    by_cases hk : k = d
    · subst hk
      simp [findIdxKey] at h
      subst h
      exact ⟨by simp, rfl⟩
    · simp only [findIdxKey, if_neg hk] at h
      cases hj : findIdxKey ks d with
      | none => rw [hj] at h; simp at h
      | some j =>
        rw [hj] at h
        have hi : j + 1 = i := by simpa using h
        obtain ⟨hj2, hg⟩ := ih hj
        subst hi
        exact ⟨by simp only [List.length_cons]; omega, hg⟩

theorem findIdxKey_inj {s : List (List Char)} {d₁ d₂ : List Char} {i : Nat}
    (h₁ : findIdxKey s d₁ = some i) (h₂ : findIdxKey s d₂ = some i) : d₁ = d₂ := by
  obtain ⟨hi₁, hg₁⟩ := findIdxKey_get h₁
  obtain ⟨hi₂, hg₂⟩ := findIdxKey_get h₂
  rw [← hg₁, ← hg₂]

theorem assign_snd (s : List (List Char)) (ds : List Char) :
    ∃ u, (assign s ds).2 = s ++ u := by
  unfold assign
  cases findIdxKey s ds with
  | some i => exact ⟨[], by simp⟩
  | none => exact ⟨[ds], rfl⟩

theorem assign_findIdx (s : List (List Char)) (ds : List Char) :
    findIdxKey (assign s ds).2 ds = some ((assign s ds).1 - 1) := by
  unfold assign
  cases hj : findIdxKey s ds with
  | some i => dsimp only; simpa using hj
  | none =>
    dsimp only
    rw [findIdxKey_append_none hj [ds]]
    simp [findIdxKey]

theorem assign_fst_pos (s : List (List Char)) (ds : List Char) :
    1 ≤ (assign s ds).1 := by
  unfold assign
  cases findIdxKey s ds <;> simp

theorem addKeys_ext (segs : List Seg) :
    ∀ s, ∃ u, addKeys s segs = s ++ u := by
  induction segs with
  | nil => intro s; exact ⟨[], by simp [addKeys]⟩
  | cons x rest ih =>
    intro s
    cases x with
    | lit c => simpa [addKeys] using ih s
    | tok ds =>
      obtain ⟨u₁, hu₁⟩ := assign_snd s ds
      obtain ⟨u₂, hu₂⟩ := ih (assign s ds).2
      refine ⟨u₁ ++ u₂, ?_⟩
      show addKeys (assign s ds).2 rest = s ++ (u₁ ++ u₂)
      rw [hu₂, hu₁, List.append_assoc]

theorem citTokens_renumber (segs : List Seg) :
    ∀ s, citTokens (renumberSegs segs s) =
      (citTokens segs).map
        (fun ds => natDigits ((findIdxKey (addKeys s segs) ds).getD 0 + 1)) := by
  induction segs with
  | nil => intro s; rfl
  | cons x rest ih =>
    intro s
    cases x with
    | lit c =>
      simp only [renumberSegs, citTokens, List.filterMap_cons, addKeys]
      exact ih s
    | tok ds =>
      simp only [renumberSegs, citTokens, List.filterMap_cons, addKeys, List.map_cons]
      congr 1
      · have h1 := assign_findIdx s ds
        obtain ⟨u, hu⟩ := addKeys_ext rest (assign s ds).2
        rw [hu, findIdxKey_append_some h1 u]
        have := assign_fst_pos s ds
        simp only [Option.getD_some]
        congr 1
        omega
      · exact ih (assign s ds).2

theorem dedupByGo_congr {α β : Type} [DecidableEq β] (key : α → β) (l : List α) :
    ∀ s₁ s₂ : List β, (∀ b, b ∈ s₁ ↔ b ∈ s₂) →
      dedupByGo key s₁ l = dedupByGo key s₂ l := by
  induction l with
  | nil => intro s₁ s₂ _; rfl
  | cons a rest ih =>
    intro s₁ s₂ hs
    by_cases hm : key a ∈ s₁
    · simp only [dedupByGo, if_pos hm, if_pos ((hs (key a)).mp hm)]
      exact ih s₁ s₂ hs
    · have hm₂ : key a ∉ s₂ := fun h => hm ((hs (key a)).mpr h)
      simp only [dedupByGo, if_neg hm, if_neg hm₂]
      rw [ih (key a :: s₁) (key a :: s₂) (by intro b; simp [hs b])]

theorem addKeys_dedup (segs : List Seg) :
    ∀ s, addKeys s segs = s ++ dedupByGo id s (citTokens segs) := by
  induction segs with
  | nil => intro s; simp [addKeys, citTokens, dedupByGo]
  | cons x rest ih =>
    intro s
    cases x with
    | lit c =>
      simp only [addKeys, citTokens, List.filterMap_cons]
      exact ih s
    | tok ds =>
      simp only [addKeys, citTokens, List.filterMap_cons]
      show addKeys (assign s ds).2 rest = s ++ dedupByGo id s (ds :: citTokens rest)
      unfold assign
      cases hj : findIdxKey s ds with
      | some i =>
        have hmem : (id ds : List Char) ∈ s := by
          by_contra hn
          rw [(findIdxKey_none_iff s ds).mpr hn] at hj
          exact absurd hj (by simp)
        simp only [dedupByGo, if_pos hmem]
        exact ih s
      | none =>
        have hmem : (id ds : List Char) ∉ s := (findIdxKey_none_iff s ds).mp hj
        simp only [dedupByGo, if_neg hmem]
        rw [ih (s ++ [ds])]
        rw [dedupByGo_congr id (citTokens rest) (s ++ [ds]) (ds :: s) (by intro b; simp; tauto)]
        simp

theorem canonKeys_length (n : Nat) : (canonKeys n).length = n := by
  simp [canonKeys]

theorem canonKeys_succ (n : Nat) :
    canonKeys (n + 1) = canonKeys n ++ [natDigits (n + 1)] := by
  unfold canonKeys
  rw [List.range'_concat]
  simp [Nat.add_comm]

theorem findIdxKey_canon_none {m j : Nat} (h : m < j) :
    findIdxKey (canonKeys m) (natDigits j) = none := by
  induction m with
  | zero => rfl
  | succ m ih =>
    rw [canonKeys_succ, findIdxKey_append_none (ih (by omega))]
    have hne : natDigits (m + 1) ≠ natDigits j := fun he => by
      have := natDigits_inj he
      omega
    simp [findIdxKey, hne]

theorem findIdxKey_canon_some {j : Nat} (h1 : 1 ≤ j) :
    ∀ m, j ≤ m → findIdxKey (canonKeys m) (natDigits j) = some (j - 1) := by
  intro m
  induction m with
  | zero => intro h2; omega
  | succ m ih =>
    intro h2
    by_cases hj : j ≤ m
    · rw [canonKeys_succ]
      exact findIdxKey_append_some (ih hj) _
    · have hje : j = m + 1 := by omega
      subst hje
      rw [canonKeys_succ, findIdxKey_append_none (findIdxKey_canon_none (by omega))]
      simp [findIdxKey, canonKeys_length]

theorem assign_canon_le {j m : Nat} (h1 : 1 ≤ j) (h2 : j ≤ m) :
    assign (canonKeys m) (natDigits j) = (j, canonKeys m) := by
  unfold assign
  rw [findIdxKey_canon_some h1 m h2]
  dsimp only
  congr 1
  omega

theorem assign_canon_succ (m : Nat) :
    assign (canonKeys m) (natDigits (m + 1)) = (m + 1, canonKeys (m + 1)) := by
  unfold assign
  rw [findIdxKey_canon_none (by omega : m < m + 1)]
  dsimp only
  rw [canonKeys_length, canonKeys_succ]

theorem ddGo_peel_char {c : Char} (hc : c ≠ '[') :
    ∀ u s r, ddGo u s = c :: r → ∃ w, u = c :: w ∧ ddGo w s = r := by
  intro u s r h
  cases u with
  | nil => exact absurd h (by simp [ddGo, ddGoF])
  | cons a u' =>
    rw [ddGo_cons] at h
    cases hm : matchTok (a :: u') with
    | some p =>
      obtain ⟨ds, rest⟩ := p
      rw [hm] at h
      dsimp only at h
      exact absurd (List.head_eq_of_cons_eq h).symm hc
    | none =>
      rw [hm] at h
      dsimp only at h
      obtain ⟨ha, hr⟩ := List.cons_eq_cons.mp h
      exact ⟨u', by rw [ha], hr⟩

theorem ddGo_peel_list (L : List Char) (hL : ∀ c ∈ L, c ≠ '[') :
    ∀ u s r, ddGo u s = L ++ r → ∃ w, u = L ++ w ∧ ddGo w s = r := by
  induction L with
  | nil => intro u s r h; exact ⟨u, rfl, h⟩
  | cons c L ih =>
    intro u s r h
    obtain ⟨w₁, hw₁, hdd₁⟩ :=
      ddGo_peel_char (hL c (List.mem_cons_self _ _)) u s (L ++ r) (by simpa using h)
    obtain ⟨w, hw, hdd⟩ := ih (fun d hd => hL d (List.mem_cons_of_mem _ hd)) w₁ s r hdd₁
    exact ⟨w, by simp [hw₁, hw], hdd⟩

theorem matchTok_ddGo_none {c : Char} {cs : List Char}
    (h : matchTok (c :: cs) = none) (s : List (List Char)) :
    matchTok (c :: ddGo cs s) = none := by
  cases hm : matchTok (c :: ddGo cs s) with
  | none => rfl
  | some p =>
    obtain ⟨nds, r⟩ := p
    exfalso
    obtain ⟨hl, hne, hd⟩ := matchTok_some_shape hm
    obtain ⟨hcc, hdd⟩ := List.cons_eq_cons.mp hl
    cases cs with
    | nil => exact absurd hdd (by simp [ddGo, ddGoF])
    | cons a cs' =>
      rw [ddGo_cons] at hdd
      cases hm2 : matchTok (a :: cs') with
      | some p2 =>
        obtain ⟨ds₂, rest₂⟩ := p2
        rw [hm2] at hdd
        dsimp only at hdd
        have := (List.cons_eq_cons.mp (List.cons_eq_cons.mp hdd).2).1
        exact absurd this (by decide)
      | none =>
        rw [hm2] at hdd
        dsimp only at hdd
        obtain ⟨ha, hdd'⟩ := List.cons_eq_cons.mp hdd
        have hL : ∀ d ∈ 'C' :: (nds ++ [']', ']']), d ≠ '[' := by
          intro d hdm
          rcases List.mem_cons.mp hdm with rfl | hdm
          · decide
          · rcases List.mem_append.mp hdm with hdm | hdm
            · intro he
              subst he
              exact absurd (hd _ hdm) (by decide)
            · simp only [List.mem_cons, List.not_mem_nil, or_false] at hdm
              rcases hdm with rfl | rfl <;> decide
        obtain ⟨w, hw, -⟩ := ddGo_peel_list ('C' :: (nds ++ [']', ']'])) hL cs' s r
          (by rw [hdd']; simp)
        have hcs : c :: a :: cs' = '[' :: '[' :: 'C' :: (nds ++ ']' :: ']' :: w) := by
          rw [hcc, ha, hw]
          simp
        rw [hcs, matchTok_digits hne hd w] at h
        exact absurd h (by simp)

theorem dd_idem_go (n : Nat) :
    ∀ t : List Char, t.length ≤ n → ∀ s,
      ddGo (ddGo t s) (canonKeys s.length) = ddGo t s := by
  induction n with
  | zero =>
    intro t ht s
    have : t = [] := List.length_eq_zero.mp (Nat.le_zero.mp ht)
    subst this
    rfl
  | succ n ih =>
    intro t ht s
    cases t with
    | nil => rfl
    | cons c cs =>
      simp only [List.length_cons] at ht
      rw [ddGo_cons c cs s]
      cases hm : matchTok (c :: cs) with
      | none =>
        dsimp only
        rw [ddGo_cons, matchTok_ddGo_none hm s]
        dsimp only
        rw [ih cs (by omega) s]
      | some p =>
        obtain ⟨ds, rest⟩ := p
        have hrl := matchTok_some_length hm
        simp only [List.length_cons] at hrl
        dsimp only
        rw [ddGo_cons, matchTok_canonical]
        dsimp only
        cases hfi : findIdxKey s ds with
        | some i =>
          have ha : assign s ds = (i + 1, s) := by
            unfold assign
            rw [hfi]
          obtain ⟨hil, -⟩ := findIdxKey_get hfi
          rw [ha]
          dsimp only
          rw [assign_canon_le (by omega) (by omega)]
          dsimp only
          rw [ih rest (by omega) s]
        | none =>
          have ha : assign s ds = (s.length + 1, s ++ [ds]) := by
            unfold assign
            rw [hfi]
          rw [ha]
          dsimp only
          rw [assign_canon_succ]
          dsimp only
          have hlen : (s ++ [ds]).length = s.length + 1 := by simp
          rw [← hlen, ih rest (by omega) (s ++ [ds])]

theorem findIdxKey_get_of_nodup {ks : List (List Char)} (hn : ks.Nodup) :
    ∀ j (h : j < ks.length), findIdxKey ks (ks.get ⟨j, h⟩) = some j := by
  induction ks with
  | nil => intro j h; simp at h
  | cons k t ih =>
    intro j h
    cases j with
    | zero => simp [findIdxKey, List.get]
    | succ j =>
      have hj : j < t.length := by simpa using h
      have hne : k ≠ (k :: t).get ⟨j + 1, h⟩ := by
        show k ≠ t.get ⟨j, hj⟩
        intro he
        exact (List.nodup_cons.mp hn).1 (he ▸ List.get_mem t j hj)
      rw [findIdxKey, if_neg hne]
      have : (k :: t).get ⟨j + 1, h⟩ = t.get ⟨j, hj⟩ := rfl
      rw [this, ih (List.nodup_cons.mp hn).2 j hj]
      rfl

theorem findIdxKey_mem_some {ks : List (List Char)} {d : List Char} (h : d ∈ ks) :
    ∃ i, findIdxKey ks d = some i := by
  cases hf : findIdxKey ks d with
  | none => exact absurd h ((findIdxKey_none_iff ks d).mp hf)
  | some i => exact ⟨i, rfl⟩

/-- C9: `deduplicateCitations` renders the parse of the text with its
citation tokens renumbered in order of first appearance. -/
theorem c9_citation_renumbering (t : Str) :
    deduplicateCitations t = renderSegs (renumberSegs (parseCit t) []) ∧
    renderSegs (parseCit t) = t ∧
    citLits (renumberSegs (parseCit t) []) = citLits (parseCit t) ∧
    addKeys [] (parseCit t) = dedupBy id (citTokens (parseCit t)) ∧
    citTokens (renumberSegs (parseCit t) []) =
      (citTokens (parseCit t)).map
        (fun ds => natDigits ((findIdxKey (addKeys [] (parseCit t)) ds).getD 0 + 1)) ∧
    (addKeys [] (parseCit t)).Nodup ∧
    (∀ j (h : j < (addKeys [] (parseCit t)).length),
      findIdxKey (addKeys [] (parseCit t)) ((addKeys [] (parseCit t)).get ⟨j, h⟩) =
        some j) ∧
    (∀ d₁ ∈ citTokens (parseCit t), ∀ d₂ ∈ citTokens (parseCit t),
      (natDigits ((findIdxKey (addKeys [] (parseCit t)) d₁).getD 0 + 1) =
        natDigits ((findIdxKey (addKeys [] (parseCit t)) d₂).getD 0 + 1) ↔ d₁ = d₂)) ∧
    deduplicateCitations (deduplicateCitations t) = deduplicateCitations t := by
  have hkeys : addKeys [] (parseCit t) = dedupBy id (citTokens (parseCit t)) := by
    have := addKeys_dedup (parseCit t) []
    simpa [dedupBy] using this
  have hnodup : (addKeys [] (parseCit t)).Nodup := by
    rw [hkeys]
    have := (dedupByGo_keys id (citTokens (parseCit t)) []).1
    simpa using this
  have hcov : ∀ d ∈ citTokens (parseCit t), d ∈ addKeys [] (parseCit t) := by
    intro d hd
    rw [hkeys]
    rcases dedupByGo_covers id (citTokens (parseCit t)) [] d hd with hs | ⟨b, hb, hkb⟩
    · exact absurd hs (by simp)
    · have hbd : b = d := hkb
      exact hbd ▸ hb
  refine ⟨ddGo_eq_render t.length t (Nat.le_refl _) [],
    render_parse t.length t (Nat.le_refl _),
    citLits_renumber (parseCit t) [],
    hkeys,
    citTokens_renumber (parseCit t) [],
    hnodup,
    fun j h => findIdxKey_get_of_nodup hnodup j h,
    ?_,
    dd_idem_go t.length t (Nat.le_refl _) []⟩
  intro d₁ h₁ d₂ h₂
  obtain ⟨i₁, hi₁⟩ := findIdxKey_mem_some (hcov d₁ h₁)
  obtain ⟨i₂, hi₂⟩ := findIdxKey_mem_some (hcov d₂ h₂)
  rw [hi₁, hi₂]
  simp only [Option.getD_some]
  constructor
  · intro he
    have h12 : i₁ + 1 = i₂ + 1 := natDigits_inj he
    have hii : i₁ = i₂ := by omega
    exact findIdxKey_inj hi₁ (hii ▸ hi₂)
  · intro he
    subst he
    have hii : i₁ = i₂ := Option.some.inj (hi₁.symm.trans hi₂)
    rw [hii]

/-- C9 witness: on `"x[[C2]] and [[C02]], again [[C2]]"`-like input the
renumbering facts instantiate at the concrete tokens. -/
theorem c9_citation_renumbering_witness :
    (['2'] ∈ citTokens (parseCit
      ['[', '[', 'C', '2', ']', ']', 'x', '[', '[', 'C', '0', '2', ']', ']'])) ∧
    (['0', '2'] ∈ citTokens (parseCit
      ['[', '[', 'C', '2', ']', ']', 'x', '[', '[', 'C', '0', '2', ']', ']'])) ∧
    (natDigits ((findIdxKey (addKeys [] (parseCit
        ['[', '[', 'C', '2', ']', ']', 'x', '[', '[', 'C', '0', '2', ']', ']']))
        ['2']).getD 0 + 1) =
      natDigits ((findIdxKey (addKeys [] (parseCit
        ['[', '[', 'C', '2', ']', ']', 'x', '[', '[', 'C', '0', '2', ']', ']']))
        ['0', '2']).getD 0 + 1) ↔ (['2'] : List Char) = ['0', '2']) ∧
    deduplicateCitations (deduplicateCitations
      ['[', '[', 'C', '2', ']', ']', 'x', '[', '[', 'C', '0', '2', ']', ']']) =
      deduplicateCitations
        ['[', '[', 'C', '2', ']', ']', 'x', '[', '[', 'C', '0', '2', ']', ']'] :=
  ⟨by decide, by decide,
    (c9_citation_renumbering
      ['[', '[', 'C', '2', ']', ']', 'x', '[', '[', 'C', '0', '2', ']', ']']).2.2.2.2.2.2.2.1
      ['2'] (by decide) ['0', '2'] (by decide),
    (c9_citation_renumbering
      ['[', '[', 'C', '2', ']', ']', 'x', '[', '[', 'C', '0', '2', ']', ']']).2.2.2.2.2.2.2.2⟩

/-- C9 counterexample: the tokens `[[C1]]` and `[[C01]]` carry the same
original number (1) but receive different new numbers (1 and 2), because
the citation map is keyed by the digit string, not the number. -/
theorem c9_counterexample :
    digitsVal ['1'] = digitsVal ['0', '1'] ∧
    deduplicateCitations
        ['[', '[', 'C', '1', ']', ']', '[', '[', 'C', '0', '1', ']', ']'] =
      ['[', '[', 'C', '1', ']', ']', '[', '[', 'C', '2', ']', ']'] := by
  exact ⟨by decide, by decide⟩

end Veritas
